import Mathlib

set_option maxHeartbeats 1000000

/-!
Verification of the Gerrit-to-Jira browser extension core
(`content_script.js`, `service_worker.js`) against its natural-language
specification.  The JavaScript functions are shallowly embedded as
executable Lean definitions over `String` / `List Char`; JavaScript
regular-expression behaviour (leftmost match, greedy character classes,
word boundaries, `$`-escapes in replacement strings) is modelled
explicitly where the source relies on it.  All recursions are structural
so that every definition evaluates inside the kernel (`decide` / `rfl`).
-/

/-- Character class of the JavaScript `\s` regex escape and of
`String.prototype.trim` (ECMA-262 WhiteSpace plus LineTerminator). -/
def jsWs (c : Char) : Bool :=
  c = ' ' || c = '\t' || c = '\n' || c = '\r' ||
  c = Char.ofNat 11 || c = Char.ofNat 12 ||
  c = Char.ofNat 0xa0 || c = Char.ofNat 0x1680 ||
  (0x2000 ≤ c.toNat && c.toNat ≤ 0x200a) ||
  c = Char.ofNat 0x2028 || c = Char.ofNat 0x2029 || c = Char.ofNat 0x202f ||
  c = Char.ofNat 0x205f || c = Char.ofNat 0x3000 || c = Char.ofNat 0xfeff

/-- List-level model of JavaScript `String.prototype.trim`: drop the
maximal whitespace run from both ends. -/
def jsTrimList (l : List Char) : List Char :=
  ((l.dropWhile jsWs).reverse.dropWhile jsWs).reverse

/-- String wrapper for `jsTrimList` (JavaScript `s.trim()`). -/
def jsTrimStr (s : String) : String := String.mk (jsTrimList s.data)

/-- Substring test, the model of JavaScript `String.prototype.includes`:
scan every start position for a prefix match. -/
def containsL (pat : List Char) : List Char → Bool
  | [] => pat.isEmpty
  | c :: t => pat.isPrefixOf (c :: t) || containsL pat t

/-- String wrapper: `s.includes(pat)`. -/
def containsS (s pat : String) : Bool := containsL pat.data s.data

/-!
ADF rich-document data model (service_worker.js).  A source inline node
is `{type:'text', text}`, `{type:'text', text, marks:[{type:'link',
attrs:{href}}]}` or `{type:'hardBreak'}`; a paragraph is
`{type:'paragraph', content}` and the document is
`{type:'doc', version:1, content}` (the constant `type`/`version` tags
carry no information and are dropped from the embedding).
-/

inductive Inline where
  | text (s : String)
  | linkText (s : String) (href : String)
  | hardBreak
deriving DecidableEq

structure Paragraph where
  content : List Inline
deriving DecidableEq

structure AdfDoc where
  content : List Paragraph
deriving DecidableEq

/-- One plain-text run for the accumulated characters (reversed
accumulator), dropped when empty — mirrors the `if (before)` /
`if (tail)` guards of `inlineNodesForLine`. -/
def flushAcc (acc : List Char) : List Inline :=
  if acc.isEmpty then [] else [ Inline.text (String.mk acc.reverse)]

/-- Scanning loop of `inlineNodesForLine` (service_worker.js 211-239):
`acc` holds the pending plain chars reversed, `skip` counts matched-URL
characters still to consume after a link node was emitted.  On a match
the full URL becomes one link-marked text run and scanning resumes
after the occurrence (`cursor = idx + linkUrl.length`). -/
def ilGo (url : List Char) : List Char → Nat → List Char → List Inline
  | acc, _, [] => flushAcc acc
  | acc, s+1, _ :: t => ilGo url acc s t
  | acc, 0, c :: t =>
    if url.isPrefixOf (c :: t) then
      flushAcc acc ++ Inline.linkText (String.mk url) (String.mk url) :: ilGo url [] (url.length - 1) t
    else
      ilGo url (c :: acc) 0 t

/-- Embedding of `inlineNodesForLine(line, linkUrl)`
(service_worker.js 211-239). -/
def inlineNodesForLine (line linkUrl : String) : List Inline :=
  if line = "" then []
  else if linkUrl = "" || !(containsS line linkUrl) then [ Inline.text line]
  else ilGo linkUrl.data [] 0 line.data

/-- Text carried by one inline node; a hard break renders as a newline
(used to state the reconstruction property). -/
def nodeText : Inline → List Char
  | Inline.text s => s.data
  | Inline.linkText s _ => s.data
  | Inline.hardBreak => [ '\n']

/-- Concatenated text of an inline-node sequence. -/
def renderNodes (ns : List Inline) : List Char := (ns.map nodeText).flatten

/-- Prepend a character to the first segment of a split result. -/
def consHead (c : Char) : List (List Char) → List (List Char)
  | [] => [[c]]
  | s :: ss => (c :: s) :: ss

/-- Model of JavaScript `paraText.split('\n')`. -/
def splitNl : List Char → List (List Char)
  | [] => [[]]
  | c :: t => if c = '\n' then [] :: splitNl t else consHead c (splitNl t)

/-- Per-line inline nodes of a paragraph joined by explicit `hardBreak`
nodes — the loop body of `buildAdfParagraph` (service_worker.js
199-209). -/
def paraNodes (linkUrl : String) : List (List Char) → List Inline
  | [] => []
  | [l] => inlineNodesForLine (String.mk l) linkUrl
  | l :: ls => inlineNodesForLine (String.mk l) linkUrl ++ Inline.hardBreak :: paraNodes linkUrl ls

/-- Embedding of `buildAdfParagraph(paraText, linkUrl)`. -/
def buildAdfParagraph (paraText linkUrl : String) : Paragraph :=
  ⟨paraNodes linkUrl (splitNl paraText.data)⟩

/-- Model of JavaScript `text.split(/\n\n+/)`: the separator is a
maximal run of two or more newlines; the `Bool` flag is true while such
a run is being consumed. -/
def spGo : Bool → List Char → List (List Char)
  | _, [] => [[]]
  | true, '\n' :: t => spGo true t
  | false, '\n' :: '\n' :: t => [] :: spGo true t
  | _, c :: t => consHead c (spGo false t)

/-- `text.split(/\n\n+/)` (service_worker.js 186-197). -/
def splitParas (l : List Char) : List (List Char) := spGo false l

/-- The surviving (non-empty-content) paragraphs built by `textToAdf`
before the degenerate-input fallback. -/
def adfParagraphs (text linkUrl : String) : List Paragraph :=
  ((splitParas text.data).map fun p => buildAdfParagraph (String.mk p) linkUrl).filter
    fun p => p.content.length > 0

/-- The fallback paragraph `{type:'paragraph', content:[{type:'text',
text:''}]}` pushed when no paragraph survived. -/
def emptyParagraph : Paragraph := ⟨[ Inline.text ""]⟩

/-- Embedding of `textToAdf(text, linkUrl)` (service_worker.js 186-197);
the result models the `body` field of the returned object. -/
def textToAdf (text linkUrl : String) : AdfDoc :=
  if (adfParagraphs text linkUrl).isEmpty then ⟨[ emptyParagraph]⟩
  else ⟨adfParagraphs text linkUrl⟩

/-- Number of non-overlapping left-to-right occurrences of `pat`
(scanning resumes after each match, as `indexOf`/`cursor` does). -/
def countOccGo (pat : List Char) : Nat → List Char → Nat
  | _, [] => 0
  | s+1, _ :: t => countOccGo pat s t
  | 0, c :: t =>
    if pat.isPrefixOf (c :: t) then 1 + countOccGo pat (pat.length - 1) t
    else countOccGo pat 0 t

/-- Occurrence count of `pat` in `s` (non-overlapping, left to right). -/
def countOcc (s pat : String) : Nat := countOccGo pat.data 0 s.data

/-- Split of a line at the non-overlapping left-to-right occurrences of
`pat`: the segments strictly between consecutive occurrences. -/
def segsGo (pat : List Char) : List Char → Nat → List Char → List (List Char)
  | acc, _, [] => [ acc.reverse]
  | acc, s+1, _ :: t => segsGo pat acc s t
  | acc, 0, c :: t =>
    if pat.isPrefixOf (c :: t) then acc.reverse :: segsGo pat [] (pat.length - 1) t
    else segsGo pat (c :: acc) 0 t

/-- Segment decomposition of `s` by the URL occurrences. -/
def splitOcc (s pat : String) : List (List Char) := segsGo pat.data [] 0 s.data

/-- A (possibly dropped) plain-text run for one segment. -/
def flushSeg (seg : List Char) : List Inline :=
  if seg.isEmpty then [] else [ Inline.text (String.mk seg)]

/-- Canonical interleaving: a link-marked URL run between consecutive
segments, plain runs for non-empty segments. -/
def interleaveNodes (url : String) : List (List Char) → List Inline
  | [] => []
  | [seg] => flushSeg seg
  | seg :: rest => flushSeg seg ++ Inline.linkText url url :: interleaveNodes url rest

/-- Number of hyperlink-marked runs in an inline-node sequence. -/
def linkRunCount (ns : List Inline) : Nat :=
  ns.countP fun n => match n with | Inline.linkText _ _ => true | _ => false

/-- Telescoping run-length form of the global replacement
`.replace(/\n{3,}/g, '\n\n')`: a pending run of `n` newlines is emitted
as itself when `n ≤ 2` and as exactly two newlines when `n ≥ 3`. -/
def emitNl (n : Nat) : List Char := if 3 ≤ n then [ '\n', '\n'] else List.replicate n '\n'

/-- Scanner for `collapseNl`; `p` counts the pending newline run. -/
def collapseAux : Nat → List Char → List Char
  | p, [] => emitNl p
  | p, c :: t => if c = '\n' then collapseAux (p+1) t else emitNl p ++ c :: collapseAux 0 t

/-- `s.replace(/\n{3,}/g, '\n\n')` (service_worker.js 169). -/
def collapseNl (l : List Char) : List Char := collapseAux 0 l

/-- Scanner deciding that no run of three or more consecutive newlines
occurs; `n` is the length of the newline run ending at the cursor. -/
def nlRunOk : Nat → List Char → Bool
  | _, [] => true
  | n, c :: t => if c = '\n' then (if n < 2 then nlRunOk (n+1) t else false) else nlRunOk 0 t

/-- `s` contains no three consecutive newline characters. -/
def noTripleNewline (s : String) : Bool := nlRunOk 0 s.data

/-!
Character classes of the regular expressions in content_script.js and
service_worker.js.
-/

/-- ASCII letter (the `[A-Z]` class under the `/i` flag). -/
def isAsciiLetter (c : Char) : Bool := ('A' ≤ c && c ≤ 'Z') || ('a' ≤ c && c ≤ 'z')

/-- ASCII capital letter (the `[A-Z]` class, case sensitive). -/
def isAsciiUpper (c : Char) : Bool := 'A' ≤ c && c ≤ 'Z'

/-- ASCII digit (`\d`, `[0-9]`). -/
def isDigitCh (c : Char) : Bool := '0' ≤ c && c ≤ '9'

/-- Regex word character (`\w`), deciding `\b` word boundaries. -/
def wordChar (c : Char) : Bool := isAsciiLetter c || isDigitCh c || c = '_'

/-- ASCII lowercasing of one character (sufficient for the letters the
source compares case-insensitively). -/
def jsLower (c : Char) : Char :=
  if 'A' ≤ c && c ≤ 'Z' then Char.ofNat (c.toNat + 32) else c

/-- ASCII uppercasing of one character; models
`String.prototype.toUpperCase` on the ASCII issue-key alphabet the
source feeds through it. -/
def jsUpper (c : Char) : Char :=
  if 'a' ≤ c && c ≤ 'z' then Char.ofNat (c.toNat - 32) else c

/-- Uppercase a whole string (`key.toUpperCase()`). -/
def jsToUpperStr (s : String) : String := String.mk (s.data.map jsUpper)

/-- First character of the issue-key pattern `[A-Z]`; `ci` selects the
case-insensitive reading (`/i` flag). -/
def keyHead (ci : Bool) (c : Char) : Bool := if ci then isAsciiLetter c else isAsciiUpper c

/-- Tail class `[A-Z0-9]` of the issue-key pattern (with `ci` as above). -/
def keyAlnum (ci : Bool) (c : Char) : Bool :=
  if ci then isAsciiLetter c || isDigitCh c else isAsciiUpper c || isDigitCh c

/-- Match the capture group `([A-Z][A-Z0-9]+-\d+)` at the head of the
input.  The greedy classes are deterministic here: `[A-Z0-9]+` must run
until the literal hyphen and `\d+` until the first non-digit, because
neither class contains the character that must follow it, so a
backtracking engine accepts exactly the maximal runs.  Returns the
captured characters and the rest of the input. -/
def keyAt (ci : Bool) : List Char → Option (List Char × List Char)
  | [] => none
  | c :: rest =>
    if keyHead ci c then
      if (rest.takeWhile (keyAlnum ci)).isEmpty then none
      else
        match rest.dropWhile (keyAlnum ci) with
        | '-' :: ds =>
          if (ds.takeWhile isDigitCh).isEmpty then none
          else some (c :: rest.takeWhile (keyAlnum ci) ++ '-' :: ds.takeWhile isDigitCh,
                     ds.dropWhile isDigitCh)
        | _ => none
    else none

/-- Attempt `JIRA_TAG_RE = /jira\s*:\s*([A-Z][A-Z0-9]+-\d+)/i` at the
head of the input, returning the captured key. -/
def tagAt (l : List Char) : Option (List Char) :=
  match l with
  | a :: b :: c :: d :: rest =>
    if jsLower a = 'j' && jsLower b = 'i' && jsLower c = 'r' && jsLower d = 'a' then
      match rest.dropWhile jsWs with
      | ':' :: r2 =>
        match keyAt true (r2.dropWhile jsWs) with
        | some (k, _) => some k
        | none => none
      | _ => none
    else none
  | _ => none

/-- Leftmost match of `JIRA_TAG_RE` in a text (`text.match(JIRA_TAG_RE)`
tries every start position left to right). -/
def findTagKey : List Char → Option (List Char)
  | [] => none
  | c :: t =>
    match tagAt (c :: t) with
    | some k => some k
    | none => findTagKey t

/-- Attempt `/\b([A-Z][A-Z0-9]+-\d+)\b/` at one start position given the
previous character (`none` at the start of input).  The leading `\b`
needs a non-word (or absent) previous character; the trailing `\b`
needs a non-word (or absent) character after the greedy digit run —
shrinking the greedy runs can never repair a failed trailing boundary,
so the whole position fails exactly when this check fails. -/
def bareAt (ci : Bool) (prev : Option Char) (l : List Char) : Option (List Char) :=
  let prevOk := match prev with | none => true | some p => !(wordChar p)
  if prevOk then
    match keyAt ci l with
    | some (k, rest) =>
      match rest with
      | [] => some k
      | c :: _ => if wordChar c then none else some k
    | none => none
  else none

/-- Scan all start positions for the bare-key pattern, leftmost first. -/
def findBareAux (ci : Bool) (prev : Option Char) : List Char → Option (List Char)
  | [] => none
  | c :: t =>
    match bareAt ci prev (c :: t) with
    | some k => some k
    | none => findBareAux ci (some c) t

/-- Leftmost match of `ISSUE_KEY_RE` (`/\b([A-Z][A-Z0-9]+-\d+)\b/`,
case-insensitive when `ci`). -/
def findBareKey (ci : Bool) (l : List Char) : Option (List Char) := findBareAux ci none l

/-- `normalizeIssueKey` (content_script.js 40-42): uppercase the
captured key (the key is never empty here, so the null branch of the
source is unreachable). -/
def normalizeIssueKey (k : List Char) : String := String.mk (k.map jsUpper)

/-- `extractIssueKeyFromText` (content_script.js 44-54): empty text
gives null; otherwise the tracker tag wins over a bare key, and the
result is uppercased. -/
def extractIssueKeyFromText (text : String) : Option String :=
  if text = "" then none
  else
    match findTagKey text.data with
    | some k => some (normalizeIssueKey k)
    | none =>
      match findBareKey true text.data with
      | some k => some (normalizeIssueKey k)
      | none => none

/-- Abstraction of the DOM state read by `extractIssueKey`
(content_script.js 103-162): the subject resolved by `extractSubject`,
the document title, the commit-message text resolved by
`getCommitMessageText`, the page body inner text, the trimmed-later
shadow-root text chunks in document order, and the text contents
visited by the broad selector scan in scan order. -/
structure PageState where
  subject : String
  title : String
  commitText : String
  bodyText : String
  shadowChunks : List String
  broadTexts : List String

/-- Non-empty trimmed shadow-root text chunks (`shadowTextChunks`). -/
def shadowJoinedChunks (p : PageState) : List String :=
  (p.shadowChunks.map jsTrimStr).filter fun s => s ≠ ""

/-- `chunks.join('\n')`. -/
def joinNl : List String → String
  | [] => ""
  | [s] => s
  | s :: rest => s ++ "\n" ++ joinNl rest

/-- The broad selector scan (step 5 of `extractIssueKey`): first text
whose trimmed content yields a key. -/
def firstBroad : List String → Option String
  | [] => none
  | t :: ts =>
    match extractIssueKeyFromText (jsTrimStr t) with
    | some k => some k
    | none => firstBroad ts

/-- Embedding of `extractIssueKey` (content_script.js 103-162, the main
variant): subject, then document title, then commit message, then the
60,000-character page-text sample, then the joined shadow-root text,
then the broad selector scan. -/
def extractIssueKey (p : PageState) : Option String :=
  match extractIssueKeyFromText p.subject with
  | some k => some k
  | none =>
    match extractIssueKeyFromText p.title with
    | some k => some k
    | none =>
      match extractIssueKeyFromText p.commitText with
      | some k => some k
      | none =>
        match extractIssueKeyFromText (String.mk (p.bodyText.data.take 60000)) with
        | some k => some k
        | none =>
          match
            (if (shadowJoinedChunks p).isEmpty then none
             else extractIssueKeyFromText (joinNl (shadowJoinedChunks p))) with
          | some k => some k
          | none => firstBroad p.broadTexts

/-- DOM state read by the second `extractIssueKey` variant
(content_script.js 793-818): commit-selector text contents in scan
order, and the resolved subject. -/
structure PageStateV2 where
  commitTexts : List String
  subject : String

/-- Variant 2, step 1: first commit block matching `JIRA_TAG_RE`; the
raw capture is returned without uppercase normalization. -/
def findTagV2 : List String → Option String
  | [] => none
  | t :: ts =>
    match findTagKey t.data with
    | some k => some (String.mk k)
    | none => findTagV2 ts

/-- Embedding of the second `extractIssueKey` variant (content_script.js
793-818): tracker tag in a commit block first, then a case-sensitive
bare key in the subject. -/
def extractIssueKeyV2 (p : PageStateV2) : Option String :=
  match findTagV2 p.commitTexts with
  | some k => some k
  | none =>
    match findBareKey false p.subject.data with
    | some k => some (String.mk k)
    | none => none

/-- `isValidIssueKey` (service_worker.js 44-46):
`/^[A-Z][A-Z0-9]+-\d+$/.test(key)`.  Both anchors make this a
full-string match; the greedy classes are deterministic as in `keyAt`. -/
def isValidIssueKey (key : String) : Bool :=
  match key.data with
  | [] => false
  | c :: rest =>
    isAsciiUpper c &&
    !(rest.takeWhile (keyAlnum false)).isEmpty &&
    (match rest.dropWhile (keyAlnum false) with
     | '-' :: ds => !ds.isEmpty && ds.all isDigitCh
     | _ => false)

/-!
Model of the WHATWG URL parser fragment used by
`new URL(url).origin`, covering the inputs the allowlist check can
meaningfully distinguish.  Hosts containing `[`, `%` or non-ASCII
characters (IPv6/percent/IDNA forms) are treated as parse failures;
they cannot serialize to either allowlisted origin, so the predicates
below are unaffected.
-/

/-- A C0 control or space (stripped from both ends of a URL string). -/
def isC0OrSpace (c : Char) : Bool := c.toNat ≤ 0x20

/-- ASCII tab or newline (removed everywhere inside a URL string). -/
def isTabNl (c : Char) : Bool := c = '\t' || c = '\n' || c = '\r'

/-- Input cleansing of the URL parser. -/
def cleanseUrl (l : List Char) : List Char :=
  (((l.dropWhile isC0OrSpace).reverse.dropWhile isC0OrSpace).reverse).filter fun c => !(isTabNl c)

/-- Scheme characters after the leading letter. -/
def isSchemeChar (c : Char) : Bool :=
  isAsciiLetter c || isDigitCh c || c = '+' || c = '-' || c = '.'

/-- Parse `scheme ':'`; returns the lowercased scheme and the rest. -/
def parseScheme (l : List Char) : Option (List Char × List Char) :=
  match l with
  | [] => none
  | c :: _ =>
    if isAsciiLetter c then
      match l.dropWhile isSchemeChar with
      | ':' :: rest => some ((l.takeWhile isSchemeChar).map jsLower, rest)
      | _ => none
    else none

/-- Default port of the special schemes with a tuple origin; `none`
marks schemes whose origin serializes as the literal string `"null"`
(opaque origins, and `file:`). -/
def specialPort (scheme : List Char) : Option Nat :=
  if scheme = "http".data then some 80
  else if scheme = "https".data then some 443
  else if scheme = "ws".data then some 80
  else if scheme = "wss".data then some 443
  else if scheme = "ftp".data then some 21
  else none

/-- Characters that make a host invalid in this model (WHATWG forbidden
host code points, plus `%` and non-ASCII as unmodelled). -/
def hostForbidden (c : Char) : Bool :=
  c.toNat ≤ 0x20 || c = '#' || c = '/' || c = ':' || c = '<' || c = '>' ||
  c = '?' || c = '@' || c = '[' || c = '\\' || c = ']' || c = '^' || c = '|' ||
  c = '%' || 0x7f ≤ c.toNat

/-- Digits of a port to its numeric value. -/
def digitsToNat (l : List Char) : Nat := l.foldl (fun n c => n * 10 + (c.toNat - 48)) 0

/-- The host begins after the last `@` of the authority (userinfo). -/
def afterLastAt (l : List Char) : List Char := (l.reverse.takeWhile (fun c => c ≠ '@')).reverse

/-- Parse `host[:port]` and serialize the origin; the default port is
elided, a numeric port above 65535 or a non-digit port character is a
parse failure, an empty port is the default. -/
def parseHostPort (scheme : List Char) (dp : Nat) (hp : List Char) : Option (List Char) :=
  let host := hp.takeWhile fun c => c ≠ ':'
  if host.isEmpty then none
  else if host.any hostForbidden then none
  else
    let base := scheme ++ "://".data ++ host.map jsLower
    match hp.dropWhile (fun c => c ≠ ':') with
    | [] => some base
    | _ :: ds =>
      if ds.isEmpty then some base
      else if ds.all isDigitCh then
        if 65536 ≤ digitsToNat ds then none
        else if digitsToNat ds = dp then some base
        else some (base ++ ':' :: (Nat.repr (digitsToNat ds)).data)
      else none

/-- Model of `new URL(url).origin`: `none` when the constructor throws,
otherwise the serialized origin (the string `"null"` for opaque
origins). -/
def urlOrigin (url : String) : Option String :=
  match parseScheme (cleanseUrl url.data) with
  | none => none
  | some (scheme, rest) =>
    match specialPort scheme with
    | none => some "null"
    | some dp =>
      match
        parseHostPort scheme dp
          (afterLastAt ((rest.dropWhile fun c => c = '/' || c = '\\').takeWhile
            fun c => !(c = '/' || c = '\\' || c = '?' || c = '#'))) with
      | some o => some (String.mk o)
      | none => none

/-- `GERRIT_ORIGINS` (service_worker.js 11-14). -/
def GERRIT_ORIGINS : List String := [ "http://gerrit.thinkfree.com", "https://gerrit.thinkfree.com"]

/-- `isGerritTab` (service_worker.js 28-34):
`GERRIT_ORIGINS.includes(new URL(url).origin)`, false when the URL
constructor throws. -/
def isGerritTab (url : String) : Bool :=
  match urlOrigin url with
  | some o => GERRIT_ORIGINS.contains o
  | none => false

/-- `isAllowedChangeUrl` (service_worker.js 36-42), textually identical
to `isGerritTab`. -/
def isAllowedChangeUrl (url : String) : Bool :=
  match urlOrigin url with
  | some o => GERRIT_ORIGINS.contains o
  | none => false

/-- Result of the key/URL validation prefix of `handlePopupAddComment` /
`handlePopupAddRemoteLink` (service_worker.js 435-502): the
missing-key message, the disallowed-domain message, or proceeding to
the Jira call with the chosen key. -/
inductive PopupOutcome where
  | needKey
  | badUrl
  | proceed (issueKey : String)
deriving DecidableEq

/-- Key selection of both handlers:
`overrideKey = String(issueKeyOverride || '').trim().toUpperCase()`,
then `isValidIssueKey(overrideKey) ? overrideKey : context.issueKey`. -/
def chooseIssueKey (issueKeyOverride : String) (ctxKey : Option String) : Option String :=
  let overrideKey := jsToUpperStr (jsTrimStr issueKeyOverride)
  if isValidIssueKey overrideKey then some overrideKey else ctxKey

/-- Shared validation prefix of `handlePopupAddComment` and
`handlePopupAddRemoteLink` (their key/URL logic is identical): no key
→ the missing-key failure; disallowed context URL → the domain
failure; otherwise the action proceeds with the chosen key. -/
def popupAddActionDecision (issueKeyOverride : String) (ctxKey : Option String)
    (gerritUrl : String) : PopupOutcome :=
  match chooseIssueKey issueKeyOverride ctxKey with
  | none => PopupOutcome.needKey
  | some k =>
    if isAllowedChangeUrl gerritUrl then PopupOutcome.proceed k
    else PopupOutcome.badUrl

/-- `handlePopupAddComment`'s instance of the shared decision logic. -/
def handlePopupAddCommentDecision : String → Option String → String → PopupOutcome :=
  popupAddActionDecision

/-- `handlePopupAddRemoteLink`'s instance of the shared decision logic. -/
def handlePopupAddRemoteLinkDecision : String → Option String → String → PopupOutcome :=
  popupAddActionDecision

/-- A Jira HTTP response as the orchestrator sees it: a status code and
a body.  The body field exists so that body-independence of the error
reporting is a statable property. -/
structure JiraResponse where
  status : Nat
  body : String

/-- `mapJiraError` (service_worker.js 241-249). -/
def mapJiraError (status : Nat) : String :=
  if status = 400 then "잘못된 요청 (400): 이슈 키 또는 요청 형식을 확인하세요."
  else if status = 401 then "인증 실패 (401): Jira 이메일 또는 API 토큰을 확인하세요."
  else if status = 403 then "권한 없음 (403): 해당 작업 권한이 없습니다."
  else if status = 404 then "대상을 찾을 수 없음 (404): 이슈 키를 확인하세요."
  else "Jira API 오류: HTTP " ++ Nat.repr status

/-- Reported outcome of `jiraClient.addComment` for a response:
`addComment` throws an error carrying only `resp.status` when the
status is not 201 (service_worker.js 351-371), and the handler surfaces
`mapClientError` → `mapJiraError(status)` for it.  `none` is success. -/
def addCommentOutcome (resp : JiraResponse) : Option String :=
  if resp.status = 201 then none else some (mapJiraError resp.status)

/-- Reported outcome of `jiraClient.addRemoteLink` (success on 200 or
201, service_worker.js 329-349). -/
def addRemoteLinkOutcome (resp : JiraResponse) : Option String :=
  if resp.status = 200 || resp.status = 201 then none else some (mapJiraError resp.status)

/-- Reported outcome of `jiraClient.getIssue`'s status check (success
on 200, service_worker.js 305-327). -/
def getIssueOutcome (resp : JiraResponse) : Option String :=
  if resp.status = 200 then none else some (mapJiraError resp.status)

/-- The title/url pair handed to `ensureCommentMinimum`. -/
structure MinVars where
  title : String
  url : String

/-- First `if` of `ensureCommentMinimum`: append the fallback title
line when the title is truthy and absent from `out`. -/
def ensureStep1 (out : String) (vars : MinVars) : String :=
  if vars.title = "" then out
  else if containsS out vars.title then out
  else out ++ "\n\n제목: " ++ vars.title

/-- Second `if` of `ensureCommentMinimum`: append the fallback URL line
when the URL is truthy and absent from the intermediate `out`. -/
def ensureStep2 (out : String) (vars : MinVars) : String :=
  if vars.url = "" then out
  else if containsS out vars.url then out
  else out ++ "\nGerrit: " ++ vars.url

/-- Embedding of `ensureCommentMinimum(text, vars)` (service_worker.js
173-184): trim, append the fallback title line when the non-empty title
is absent, append the fallback URL line when the non-empty URL is
absent from the intermediate result, trim again. -/
def ensureCommentMinimum (text : String) (vars : MinVars) : String :=
  jsTrimStr (ensureStep2 (ensureStep1 (jsTrimStr text) vars) vars)

/-!
Template renderer (service_worker.js 159-171).  JavaScript
`String.prototype.replace` with a string replacement interprets the
`$`-escapes `$$`, `$&`, dollar-backquote (the original text before the
match) and dollar-quote (the original text after the match); with zero
capture groups every other `$` sequence is literal.  The embedding
models this expansion faithfully.
-/

/-- Expansion of a replacement string at one match: `matched` is the
matched text, `pre`/`post` the original input before/after the match. -/
def expandRep (matched pre post : List Char) : List Char → List Char
  | [] => []
  | [c] => if c = '$' then [ '$'] else [c]
  | c :: d :: r =>
    if c = '$' then
      if d = '$' then '$' :: expandRep matched pre post r
      else if d = '&' then matched ++ expandRep matched pre post r
      else if d = Char.ofNat 96 then pre ++ expandRep matched pre post r
      else if d = Char.ofNat 39 then post ++ expandRep matched pre post r
      else '$' :: d :: expandRep matched pre post r
    else c :: expandRep matched pre post (d :: r)

/-- Scanner of the global replace: `skip` counts the characters of a
match still to consume, `pos` is the current index into the original
input `orig` (used by the `$`-escapes).  Matches are found left to
right and scanning resumes after each match; replacements are not
rescanned. -/
def raGo (pat rep orig : List Char) : Nat → Nat → List Char → List Char
  | _, _, [] => []
  | s+1, pos, _ :: t => raGo pat rep orig s (pos+1) t
  | 0, pos, c :: t =>
    if pat.isPrefixOf (c :: t) then
      expandRep pat (orig.take pos) (orig.drop (pos + pat.length)) rep ++
        raGo pat rep orig (pat.length - 1) (pos + 1) t
    else c :: raGo pat rep orig 0 (pos + 1) t

/-- `s.replace(/pat/g, rep)` for a non-empty literal pattern `pat` (all
the source's placeholder patterns are non-empty literals; the empty
pattern is returned unchanged only to keep the function total). -/
def replaceAllJs (s pat rep : List Char) : List Char :=
  if pat.isEmpty then s else raGo pat rep s 0 0 s

/-- The render variables of `renderTemplate`; an absent variable and
the empty string coincide (`vars.x ?? ''`). -/
structure Vars where
  title : String
  body : String
  branch : String
  changeNum : String
  project : String
  owner : String
  date : String
  url : String
deriving DecidableEq

/-- The chained placeholder replacement of `renderTemplate`
(service_worker.js 160-168), in source order. -/
def renderCore (t : List Char) (vars : Vars) : List Char :=
  replaceAllJs (replaceAllJs (replaceAllJs (replaceAllJs (replaceAllJs (replaceAllJs (replaceAllJs (replaceAllJs
    t "{title}".data vars.title.data)
    "{body}".data vars.body.data)
    "{branch}".data vars.branch.data)
    "{change_num}".data vars.changeNum.data)
    "{project}".data vars.project.data)
    "{owner}".data vars.owner.data)
    "{date}".data vars.date.data)
    "{url}".data vars.url.data

/-- Embedding of `renderTemplate(template, vars)` (service_worker.js
159-171): the eight sequential global replaces, then
`.replace(/\n{3,}/g, '\n\n')`, then `.trim()`. -/
def renderTemplate (template : String) (vars : Vars) : String :=
  String.mk (jsTrimList (collapseNl (renderCore template.data vars)))

/-- First recognized placeholder at the head of the input, with its
variable value and its length. -/
def findPh (vars : Vars) (l : List Char) : Option (List Char × Nat) :=
  if "{title}".data.isPrefixOf l then some (vars.title.data, 7)
  else if "{body}".data.isPrefixOf l then some (vars.body.data, 6)
  else if "{branch}".data.isPrefixOf l then some (vars.branch.data, 8)
  else if "{change_num}".data.isPrefixOf l then some (vars.changeNum.data, 12)
  else if "{project}".data.isPrefixOf l then some (vars.project.data, 9)
  else if "{owner}".data.isPrefixOf l then some (vars.owner.data, 7)
  else if "{date}".data.isPrefixOf l then some (vars.date.data, 6)
  else if "{url}".data.isPrefixOf l then some (vars.url.data, 5)
  else none

/-- Single left-to-right pass replacing every recognized placeholder by
its variable value (values are not rescanned); `skip` consumes the
matched placeholder. -/
def simulGo (vars : Vars) : Nat → List Char → List Char
  | _, [] => []
  | s+1, _ :: t => simulGo vars s t
  | 0, c :: t =>
    match findPh vars (c :: t) with
    | some (val, len) => val ++ simulGo vars (len - 1) t
    | none => c :: simulGo vars 0 t

/-- Modelled from the spec: the reference definition of the template
renderer (spec §4.2 and §8) — replace every occurrence of each
recognized placeholder by the corresponding variable's value in one
simultaneous pass, leave unrecognized brace tokens verbatim, then
collapse 3+ newline runs to 2 and trim.  Kept separate from
`renderTemplate` (the source embedding) to compare the two. -/
def renderTemplateSpec (template : String) (vars : Vars) : String :=
  String.mk (jsTrimList (collapseNl (simulGo vars 0 template.data)))

/-- The eight recognized placeholders, in replacement order. -/
def phList : List (List Char) :=
  [ "{title}".data, "{body}".data, "{branch}".data, "{change_num}".data,
    "{project}".data, "{owner}".data, "{date}".data, "{url}".data]

/-- Placeholder at an index. -/
def phAt (i : Fin 8) : List Char := phList.getD i.val []

/-- The corresponding variable values, in the same order. -/
def varList (vars : Vars) : List (List Char) :=
  [ vars.title.data, vars.body.data, vars.branch.data, vars.changeNum.data,
    vars.project.data, vars.owner.data, vars.date.data, vars.url.data]

/-- Variable value at an index. -/
def varAt (vars : Vars) (i : Fin 8) : List Char := (varList vars).getD i.val []

/-- A template segment: literal text or a recognized placeholder. -/
def TmplSeg : Type := Sum (List Char) (Fin 8)

/-- Reassemble a segment decomposition into the template text. -/
def assembleTmpl : List TmplSeg → List Char
  | [] => []
  | Sum.inl x :: rest => x ++ assembleTmpl rest
  | Sum.inr i :: rest => phAt i ++ assembleTmpl rest

/-- The fully substituted text of a segment decomposition. -/
def assembleSub (vars : Vars) : List TmplSeg → List Char
  | [] => []
  | Sum.inl x :: rest => x ++ assembleSub vars rest
  | Sum.inr i :: rest => varAt vars i ++ assembleSub vars rest

/-- Literal text free of `{` (so no placeholder match can start in it). -/
def noLBrace (x : List Char) : Bool := x.all fun c => c ≠ '{'

/-- All literal segments are `{`-free: every brace of the template
belongs to a recognized placeholder occurrence. -/
def goodSegs (segs : List TmplSeg) : Bool :=
  segs.all fun s => match s with | Sum.inl x => noLBrace x | Sum.inr _ => true

/-- A variable value that neither starts a placeholder match (`{`) nor
triggers replacement-string expansion (`$`). -/
def cleanVal (x : List Char) : Bool := x.all fun c => c ≠ '{' && c ≠ '$'

/-- All eight variable values are clean. -/
def cleanVars (vars : Vars) : Bool := (varList vars).all cleanVal

/-- No recognized placeholder occurs anywhere in the template. -/
def noPhOccurs (t : String) : Bool := phList.all fun p => !(containsL p t.data)

/-- Substitute one placeholder index inside a decomposition (the effect
of one `replaceAllJs` pass). -/
def substSeg (vars : Vars) (i : Fin 8) : TmplSeg → TmplSeg
  | Sum.inl x => Sum.inl x
  | Sum.inr j => if j = i then Sum.inl (varAt vars i) else Sum.inr j

/-- Substitute every placeholder of a decomposition. -/
def fullSubSeg (vars : Vars) : TmplSeg → TmplSeg
  | Sum.inl x => Sum.inl x
  | Sum.inr j => Sum.inl (varAt vars j)

/-- Join line segments with a newline between consecutive segments
(the inverse of `splitNl`, used to state reconstruction). -/
def intercalateNl : List (List Char) → List Char
  | [] => []
  | [l] => l
  | l :: ls => l ++ '\n' :: intercalateNl ls

/-!
General helper lemmas about the string model.
-/

theorem string_eta (s : String) : String.mk s.data = s := by
  cases s
  rfl

theorem string_data_ne {s : String} (h : s ≠ "") : s.data ≠ [] := by
  intro hd
  apply h
  cases s with
  | mk l => cases hd; rfl

theorem containsL_iff {pat l : List Char} : containsL pat l = true ↔ pat <:+: l := by
  induction l with
  | nil => simp [containsL, List.isEmpty_iff]
  | cons c t ih =>
    simp only [containsL, Bool.or_eq_true, List.infix_cons_iff, ih,
      List.isPrefixOf_iff_prefix]

theorem containsS_iff {s pat : String} : containsS s pat = true ↔ pat.data <:+: s.data := by
  simp [containsS, containsL_iff]

theorem dropWhile_head_false {p : Char → Bool} {l : List Char} :
    ∀ {c : Char} {t : List Char}, l.dropWhile p = c :: t → p c = false := by
  induction l with
  | nil => intro c t h; simp [List.dropWhile] at h
  | cons a l2 ih =>
    intro c t h
    rw [List.dropWhile_cons] at h
    split at h
    · exact ih h
    · next hpa =>
        cases h
        simpa using hpa

theorem dropWhile_self {p : Char → Bool} (l : List Char) :
    (l.dropWhile p).dropWhile p = l.dropWhile p := by
  cases h : l.dropWhile p with
  | nil => rfl
  | cons c t =>
    rw [List.dropWhile_cons, dropWhile_head_false h]
    simp

theorem jsTrimList_length_le (l : List Char) : (jsTrimList l).length ≤ (l.dropWhile jsWs).length := by
  unfold jsTrimList
  have h := (List.dropWhile_suffix (l := (l.dropWhile jsWs).reverse) jsWs).sublist.length_le
  simpa using h

theorem trimmed_head {pat : List Char} (h : jsTrimList pat = pat) :
    ∀ {c : Char} {t : List Char}, pat = c :: t → jsWs c = false := by
  intro c t hct
  by_contra hws
  have hws' : jsWs c = true := by simpa using hws
  have h1 : (jsTrimList pat).length ≤ (pat.dropWhile jsWs).length := jsTrimList_length_le pat
  rw [h, hct] at h1
  rw [List.dropWhile_cons, if_pos hws'] at h1
  have h2 : (t.dropWhile jsWs).length ≤ t.length :=
    (List.dropWhile_suffix (l := t) jsWs).sublist.length_le
  simp at h1
  omega

theorem dropWhile_eq_self_of_len {p : Char → Bool} {l : List Char}
    (h : (l.dropWhile p).length = l.length) : l.dropWhile p = l :=
  (List.dropWhile_suffix p).sublist.eq_of_length h

theorem trimmed_rev_head {pat : List Char} (h : jsTrimList pat = pat) :
    ∀ {c : Char} {t : List Char}, pat.reverse = c :: t → jsWs c = false := by
  intro c t hct
  by_contra hws
  have hws' : jsWs c = true := by simpa using hws
  -- the outer dropWhile did not shorten, so it kept `pat` unchanged
  have h1 : (jsTrimList pat).length ≤ (pat.dropWhile jsWs).length := jsTrimList_length_le pat
  have h2 : (pat.dropWhile jsWs).length ≤ pat.length :=
    (List.dropWhile_suffix jsWs).sublist.length_le
  have hA : pat.dropWhile jsWs = pat := by
    apply dropWhile_eq_self_of_len
    rw [h] at h1
    omega
  have hB : jsTrimList pat = ((pat.reverse).dropWhile jsWs).reverse := by
    unfold jsTrimList
    rw [hA]
  rw [hct, List.dropWhile_cons, if_pos hws'] at hB
  have h3 : (t.dropWhile jsWs).length ≤ t.length :=
    (List.dropWhile_suffix (l := t) jsWs).sublist.length_le
  have h4 : (jsTrimList pat).length = pat.length := by rw [h]
  have h5 : pat.length = t.length + 1 := by
    have := congrArg List.length hct
    simpa [Nat.add_comm] using this
  rw [hB] at h4
  simp at h4
  omega

theorem infix_dropWhile_head {p : Char → Bool} {c : Char} {t : List Char}
    (hc : p c = false) : ∀ {l : List Char}, (c :: t) <:+: l → (c :: t) <:+: l.dropWhile p := by
  intro l
  induction l with
  | nil => intro h; simp at h
  | cons a l2 ih =>
    intro h
    rw [List.dropWhile_cons]
    split
    · next hpa =>
        rcases List.infix_cons_iff.mp h with hpre | hinf
        · rcases List.cons_prefix_cons.mp hpre with ⟨heq, -⟩
          rw [← heq] at hpa
          rw [hc] at hpa
          cases hpa
        · exact ih hinf
    · exact h

theorem infix_jsTrim {pat l : List Char} (hp : jsTrimList pat = pat) (hne : pat ≠ [])
    (h : pat <:+: l) : pat <:+: jsTrimList l := by
  obtain ⟨c, t, hct⟩ := List.exists_cons_of_ne_nil hne
  have hrevne : pat.reverse ≠ [] := by simpa using hne
  obtain ⟨d, u, hdu⟩ := List.exists_cons_of_ne_nil hrevne
  have h1 : pat <:+: l.dropWhile jsWs := by
    rw [hct] at h ⊢
    exact infix_dropWhile_head (trimmed_head hp hct) h
  have h2 : pat.reverse <:+: (l.dropWhile jsWs).reverse := List.reverse_infix.mpr h1
  have h3 : pat.reverse <:+: ((l.dropWhile jsWs).reverse).dropWhile jsWs := by
    rw [hdu] at h2 ⊢
    exact infix_dropWhile_head (trimmed_rev_head hp hdu) h2
  have h4 := List.reverse_infix.mpr h3
  simpa [jsTrimList] using h4

theorem getLast?_append_right {a b : List Char} (h : b ≠ []) :
    (a ++ b).getLast? = b.getLast? := List.getLast?_append_of_ne_nil a h

theorem jsTrim_idem (l : List Char) : jsTrimList (jsTrimList l) = jsTrimList l := by
  set A := l.dropWhile jsWs with hA
  set B := A.reverse.dropWhile jsWs with hB
  have htr : jsTrimList l = B.reverse := rfl
  -- the head of B.reverse (i.e. the last of B) is non-whitespace
  have hBB : B.dropWhile jsWs = B := dropWhile_self A.reverse
  have hBrev : B.reverse.dropWhile jsWs = B.reverse := by
    cases hc : B.reverse with
    | nil => simp [hc]
    | cons c t =>
      have hBne : B ≠ [] := by
        intro hBnil
        rw [hBnil] at hc
        simp at hc
      obtain ⟨pre, hpre⟩ : ∃ pre, pre ++ B = A.reverse := List.dropWhile_suffix jsWs
      have hlast : B.getLast? = some c := by
        have := congrArg List.head? hc
        simpa [List.head?_reverse] using this
      have hlastA : A.reverse.getLast? = some c := by
        rw [← hpre, getLast?_append_right hBne, hlast]
      have hheadA : A.head? = some c := by
        rw [← List.getLast?_reverse]
        exact hlastA
      have hAne : A ≠ [] := by
        intro hAnil
        rw [hAnil] at hheadA
        simp at hheadA
      obtain ⟨a0, A', hA'⟩ := List.exists_cons_of_ne_nil hAne
      have ha0 : a0 = c := by
        rw [hA'] at hheadA
        simpa using hheadA
      have hws : jsWs c = false := by
        apply dropWhile_head_false (l := l) (t := A')
        rw [← hA, hA', ha0]
      rw [List.dropWhile_cons, hws]
      simp
  show jsTrimList B.reverse = B.reverse
  unfold jsTrimList
  rw [hBrev]
  simp [hBB]

theorem contains_jsTrim {s pat : String} (hp : jsTrimStr pat = pat) (hne : pat ≠ "")
    (h : containsS s pat = true) : containsS (jsTrimStr s) pat = true := by
  rw [containsS_iff] at h ⊢
  have hpl : jsTrimList pat.data = pat.data := by
    have h2 := congrArg String.data hp
    simpa [jsTrimStr] using h2
  show pat.data <:+: jsTrimList s.data
  exact infix_jsTrim hpl (string_data_ne hne) h

theorem infix_append_of_infix {p a : List Char} (b : List Char) (h : p <:+: a) :
    p <:+: a ++ b := by
  obtain ⟨x, y, rfl⟩ := h
  exact ⟨x, y ++ b, by simp⟩

theorem infix_of_append_self (pre p : List Char) : p <:+: pre ++ p :=
  ⟨pre, [], by simp⟩

theorem jsTrimStr_idem (s : String) : jsTrimStr (jsTrimStr s) = jsTrimStr s := by
  show String.mk (jsTrimList (jsTrimList s.data)) = String.mk (jsTrimList s.data)
  rw [jsTrim_idem]

theorem jsTrimStr_of_trim (s : String) : jsTrimStr (jsTrimStr s) = jsTrimStr s :=
  jsTrimStr_idem s

theorem contains_append_right {s t pat : String} (h : containsS s pat = true) :
    containsS (s ++ t) pat = true := by
  rw [containsS_iff] at h ⊢
  rw [String.data_append]
  exact infix_append_of_infix t.data h

theorem contains_self_suffix (a : String) (pat : String) :
    containsS (a ++ pat) pat = true := by
  rw [containsS_iff, String.data_append]
  exact infix_of_append_self a.data pat.data

theorem ensureStep1_contains_title {out : String} {vars : MinVars} (h : vars.title ≠ "") :
    containsS (ensureStep1 out vars) vars.title = true := by
  unfold ensureStep1
  split_ifs with h1 h2
  · exact absurd h1 h
  · exact h2
  · exact contains_self_suffix (out ++ "\n\n제목: ") vars.title

theorem ensureStep2_contains_url {out : String} {vars : MinVars} (h : vars.url ≠ "") :
    containsS (ensureStep2 out vars) vars.url = true := by
  unfold ensureStep2
  split_ifs with h1 h2
  · exact absurd h1 h
  · exact h2
  · exact contains_self_suffix (out ++ "\nGerrit: ") vars.url

theorem ensureStep2_mono {out pat : String} {vars : MinVars}
    (h : containsS out pat = true) : containsS (ensureStep2 out vars) pat = true := by
  unfold ensureStep2
  split_ifs
  · exact h
  · exact h
  · exact contains_append_right (contains_append_right h)

theorem ensureStep1_of_contains {out : String} {vars : MinVars}
    (h : containsS out vars.title = true) : ensureStep1 out vars = out := by
  simp [ensureStep1, h]

theorem ensureStep2_of_contains {out : String} {vars : MinVars}
    (h : containsS out vars.url = true) : ensureStep2 out vars = out := by
  simp [ensureStep2, h]

/-- C6: for trimmed title/url values the minimum-content guarantee
holds: a non-empty title (resp. URL) is contained in the output —
appended when absent — and nothing is appended (the result is exactly
the trimmed input) when both already appear.  The trimmedness
hypotheses are forced by the final `.trim()` of the source, which can
truncate a title or URL that ends in whitespace (see the
counterexample). -/
theorem c6_minimum_content_amended :
    ∀ (text : String) (vars : MinVars),
      jsTrimStr vars.title = vars.title → jsTrimStr vars.url = vars.url →
      (vars.title ≠ "" → containsS (ensureCommentMinimum text vars) vars.title = true) ∧
      (vars.url ≠ "" → containsS (ensureCommentMinimum text vars) vars.url = true) ∧
      (containsS (jsTrimStr text) vars.title = true →
        containsS (jsTrimStr text) vars.url = true →
        ensureCommentMinimum text vars = jsTrimStr text) := by
  intro text vars ht hu
  refine ⟨?_, ?_, ?_⟩
  · intro htne
    unfold ensureCommentMinimum
    exact contains_jsTrim ht htne (ensureStep2_mono (ensureStep1_contains_title htne))
  · intro hune
    unfold ensureCommentMinimum
    exact contains_jsTrim hu hune (ensureStep2_contains_url hune)
  · intro hct hcu
    unfold ensureCommentMinimum
    rw [ensureStep1_of_contains hct, ensureStep2_of_contains hcu]
    exact jsTrimStr_idem text

/-- C6 counterexample: with the non-empty title `"T "` (trailing space)
and empty rendered text, the final `.trim()` of `ensureCommentMinimum`
truncates the appended fallback line to `"제목: T"`, so the output does
not contain the title verbatim — refuting the claim as stated for
arbitrary titles. -/
theorem c6_minimum_content_counterexample :
    (MinVars.mk "T " "").title ≠ "" ∧
    ensureCommentMinimum "" (MinVars.mk "T " "") = "제목: T" ∧
    containsS (ensureCommentMinimum "" (MinVars.mk "T " "")) "T " = false := by
  refine ⟨by decide, by decide, by decide⟩

/-- C6 witness: the amended theorem applied at concrete inputs. -/
theorem c6_minimum_content_witness :
    containsS (ensureCommentMinimum "hello" (MinVars.mk "TF-1 fix" "http://u")) "TF-1 fix" = true ∧
    containsS (ensureCommentMinimum "hello" (MinVars.mk "TF-1 fix" "http://u")) "http://u" = true ∧
    ensureCommentMinimum " A TF-1 fix http://u B " (MinVars.mk "TF-1 fix" "http://u") =
      jsTrimStr " A TF-1 fix http://u B " := by
  refine ⟨?_, ?_, ?_⟩
  · exact (c6_minimum_content_amended "hello" (MinVars.mk "TF-1 fix" "http://u")
      (by decide) (by decide)).1 (by decide)
  · exact (c6_minimum_content_amended "hello" (MinVars.mk "TF-1 fix" "http://u")
      (by decide) (by decide)).2.1 (by decide)
  · exact (c6_minimum_content_amended " A TF-1 fix http://u B " (MinVars.mk "TF-1 fix" "http://u")
      (by decide) (by decide)).2.2 (by decide) (by decide)

/-- C7 counterexample: a non-empty, malformed override key
(`"bad key"`) is not reported as a validation failure — both action
handlers silently fall back to the extracted context key and proceed
with it. -/
theorem c7_override_key_counterexample :
    jsToUpperStr (jsTrimStr "bad key") = "BAD KEY" ∧
    isValidIssueKey "BAD KEY" = false ∧
    handlePopupAddCommentDecision "bad key" (some "TF-1")
      "http://gerrit.thinkfree.com/c/p/+/5" = PopupOutcome.proceed "TF-1" ∧
    handlePopupAddRemoteLinkDecision "bad key" (some "TF-1")
      "http://gerrit.thinkfree.com/c/p/+/5" = PopupOutcome.proceed "TF-1" := by
  refine ⟨by decide, by decide, by decide, by decide⟩

/-- C7 amended: a valid (normalized) override takes precedence; an
invalid or empty override is silently ignored and the handlers fall
back to the extracted context key, reporting the missing-key failure
only when no extracted key exists either; both handlers share this
exact decision logic. -/
theorem c7_override_key_amended :
    ∀ (ov : String) (ctxKey : Option String) (gurl : String),
      (isValidIssueKey (jsToUpperStr (jsTrimStr ov)) = true →
        isAllowedChangeUrl gurl = true →
        handlePopupAddCommentDecision ov ctxKey gurl =
          PopupOutcome.proceed (jsToUpperStr (jsTrimStr ov))) ∧
      (isValidIssueKey (jsToUpperStr (jsTrimStr ov)) = false →
        handlePopupAddCommentDecision ov ctxKey gurl =
          (match ctxKey with
           | none => PopupOutcome.needKey
           | some k =>
             if isAllowedChangeUrl gurl then PopupOutcome.proceed k
             else PopupOutcome.badUrl)) ∧
      handlePopupAddRemoteLinkDecision ov ctxKey gurl =
        handlePopupAddCommentDecision ov ctxKey gurl := by
  intro ov ctxKey gurl
  refine ⟨?_, ?_, rfl⟩
  · intro hval hurl
    simp [handlePopupAddCommentDecision, popupAddActionDecision, chooseIssueKey, hval, hurl]
  · intro hval
    cases ctxKey with
    | none =>
      simp [handlePopupAddCommentDecision, popupAddActionDecision, chooseIssueKey, hval]
    | some k =>
      simp [handlePopupAddCommentDecision, popupAddActionDecision, chooseIssueKey, hval]

/-- C7 witness: the amended theorem applied at concrete inputs. -/
theorem c7_override_key_witness :
    handlePopupAddCommentDecision " tf-7 " (some "TF-1")
      "http://gerrit.thinkfree.com/c/p/+/5" = PopupOutcome.proceed "TF-7" ∧
    handlePopupAddCommentDecision "nope" none
      "http://gerrit.thinkfree.com/c/p/+/5" = PopupOutcome.needKey := by
  refine ⟨?_, ?_⟩
  · exact (c7_override_key_amended " tf-7 " (some "TF-1")
      "http://gerrit.thinkfree.com/c/p/+/5").1 (by decide) (by decide)
  · exact (c7_override_key_amended "nope" none
      "http://gerrit.thinkfree.com/c/p/+/5").2.1 (by decide)

/-- C8: the allowed-origin predicates are true exactly when the URL
parses and its origin is one of the two hardcoded Gerrit origins; they
are total (parse failure yields `false`, never an exception); both
predicates agree; and the path-smuggling URL
`https://evil.com/http://gerrit.thinkfree.com` is rejected while a real
change URL on the allowlisted origin is accepted. -/
theorem c8_allowed_origin :
    (∀ url, isGerritTab url = true ↔ ∃ o, urlOrigin url = some o ∧ o ∈ GERRIT_ORIGINS) ∧
    (∀ url, urlOrigin url = none → isGerritTab url = false) ∧
    (∀ url, isAllowedChangeUrl url = isGerritTab url) ∧
    isGerritTab "https://evil.com/http://gerrit.thinkfree.com" = false ∧
    isGerritTab "http://gerrit.thinkfree.com/c/proj/+/123" = true := by
  refine ⟨?_, ?_, fun url => rfl, by decide, by decide⟩
  · intro url
    unfold isGerritTab
    cases h : urlOrigin url with
    | none => simp
    | some o => simp [List.contains_eq_any_beq]
  · intro url h
    unfold isGerritTab
    rw [h]

/-- C8 witness: totality conjunct applied at an unparsable input. -/
theorem c8_allowed_origin_witness :
    isGerritTab "not a url" = false := by
  exact c8_allowed_origin.2.1 "not a url" (by decide)

/-- C9: a 403 response to any of the three operations is reported as
the one fixed no-permission message; the reported outcome of a response
is a function of its status code alone (the body field never
influences it); and any status outside the four mapped codes is
reported with the raw numeric code. -/
theorem c9_status_code_mapping :
    (∀ resp : JiraResponse, resp.status = 403 →
      addCommentOutcome resp = some "권한 없음 (403): 해당 작업 권한이 없습니다." ∧
      addRemoteLinkOutcome resp = some "권한 없음 (403): 해당 작업 권한이 없습니다." ∧
      getIssueOutcome resp = some "권한 없음 (403): 해당 작업 권한이 없습니다.") ∧
    (∀ (s : Nat) (b b' : String),
      addCommentOutcome (JiraResponse.mk s b) = addCommentOutcome (JiraResponse.mk s b') ∧
      addRemoteLinkOutcome (JiraResponse.mk s b) = addRemoteLinkOutcome (JiraResponse.mk s b') ∧
      getIssueOutcome (JiraResponse.mk s b) = getIssueOutcome (JiraResponse.mk s b')) ∧
    (∀ s : Nat, s ≠ 400 → s ≠ 401 → s ≠ 403 → s ≠ 404 →
      mapJiraError s = "Jira API 오류: HTTP " ++ Nat.repr s) := by
  refine ⟨?_, ?_, ?_⟩
  · intro resp h
    refine ⟨?_, ?_, ?_⟩ <;>
      simp [addCommentOutcome, addRemoteLinkOutcome, getIssueOutcome, h, mapJiraError]
  · intro s b b'
    exact ⟨rfl, rfl, rfl⟩
  · intro s h1 h2 h3 h4
    simp [mapJiraError, h1, h2, h3, h4]

/-- C9 witness: the theorem applied at a 403 response carrying a body,
and at an unmapped status code. -/
theorem c9_status_code_mapping_witness :
    addCommentOutcome (JiraResponse.mk 403 "raw body text") =
      some "권한 없음 (403): 해당 작업 권한이 없습니다." ∧
    mapJiraError 500 = "Jira API 오류: HTTP " ++ Nat.repr 500 := by
  refine ⟨?_, ?_⟩
  · exact (c9_status_code_mapping.1 (JiraResponse.mk 403 "raw body text") rfl).1
  · exact c9_status_code_mapping.2.2 500 (by decide) (by decide) (by decide) (by decide)

/-- C4: the document built by `textToAdf` always carries at least one
paragraph; when no paragraph survives the empty-content filter the
document is exactly the single empty-text paragraph; in particular the
empty input yields exactly that document for every link URL. -/
theorem c4_text_to_adf_min_paragraph :
    (∀ text linkUrl, (textToAdf text linkUrl).content ≠ []) ∧
    (∀ text linkUrl, adfParagraphs text linkUrl = [] →
      (textToAdf text linkUrl).content = [ emptyParagraph]) ∧
    (∀ linkUrl, textToAdf "" linkUrl = AdfDoc.mk [ emptyParagraph]) := by
  have hempty : ∀ linkUrl, adfParagraphs "" linkUrl = [] := by
    intro linkUrl
    have h1 : inlineNodesForLine (String.mk []) linkUrl = [] := by
      have : String.mk [] = "" := rfl
      rw [this]
      simp [inlineNodesForLine]
    simp [adfParagraphs, splitParas, spGo, buildAdfParagraph, splitNl, paraNodes, h1]
  refine ⟨?_, ?_, ?_⟩
  · intro text linkUrl
    unfold textToAdf
    split
    · simp
    · next h =>
      simp only [List.isEmpty_iff] at h
      simpa using h
  · intro text linkUrl h
    unfold textToAdf
    rw [h]
    rfl
  · intro linkUrl
    unfold textToAdf
    rw [hempty linkUrl]
    rfl

/-- C4 witness: the zero-surviving-paragraph conjunct applied at a
blank-lines-only input. -/
theorem c4_text_to_adf_witness :
    adfParagraphs "\n\n\n" "u" = [] ∧
    (textToAdf "\n\n\n" "u").content = [ emptyParagraph] := by
  refine ⟨by decide, ?_⟩
  exact c4_text_to_adf_min_paragraph.2.1 "\n\n\n" "u" (by decide)

theorem renderNodes_nil : renderNodes [] = [] := rfl

theorem renderNodes_append (a b : List Inline) :
    renderNodes (a ++ b) = renderNodes a ++ renderNodes b := by
  simp [renderNodes]

theorem renderNodes_flushAcc (acc : List Char) : renderNodes (flushAcc acc) = acc.reverse := by
  unfold flushAcc
  split
  · next h => simp [renderNodes, List.isEmpty_iff.mp h]
  · simp [renderNodes, nodeText]

theorem renderNodes_ilGo {url : List Char} (hne : url ≠ []) :
    ∀ (l acc : List Char) (s : Nat),
      renderNodes (ilGo url acc s l) = acc.reverse ++ l.drop s := by
  intro l
  induction l with
  | nil => intro acc s; simp [ilGo, renderNodes_flushAcc]
  | cons c t ih =>
    intro acc s
    cases s with
    | succ s' =>
      show renderNodes (ilGo url acc s' t) = acc.reverse ++ (c :: t).drop (s' + 1)
      rw [ih acc s']
      simp
    | zero =>
      show renderNodes
        (if url.isPrefixOf (c :: t) then
          flushAcc acc ++ Inline.linkText (String.mk url) (String.mk url) ::
            ilGo url [] (url.length - 1) t
         else ilGo url (c :: acc) 0 t) = acc.reverse ++ (c :: t).drop 0
      split
      · next hpre =>
        obtain ⟨r, hr⟩ := List.isPrefixOf_iff_prefix.mp hpre
        obtain ⟨u0, ut, rfl⟩ := List.exists_cons_of_ne_nil hne
        have hc : u0 = c ∧ ut ++ r = t := by
          have h2 := hr
          rw [List.cons_append] at h2
          exact ⟨(List.cons.injEq _ _ _ _ ▸ h2).1, (List.cons.injEq _ _ _ _ ▸ h2).2⟩
        rw [renderNodes_append, renderNodes_flushAcc]
        show acc.reverse ++ renderNodes (Inline.linkText (String.mk (u0 :: ut)) (String.mk (u0 :: ut)) :: ilGo (u0 :: ut) [] ((u0 :: ut).length - 1) t) = acc.reverse ++ (c :: t).drop 0
        have h3 : renderNodes (Inline.linkText (String.mk (u0 :: ut)) (String.mk (u0 :: ut)) :: ilGo (u0 :: ut) [] ((u0 :: ut).length - 1) t) =
            (u0 :: ut) ++ renderNodes (ilGo (u0 :: ut) [] ((u0 :: ut).length - 1) t) := by
          simp [renderNodes, nodeText]
        rw [h3, ih [] ((u0 :: ut).length - 1)]
        have h4 : (u0 :: ut).length - 1 = ut.length := by simp
        rw [h4, ← hc.2, List.drop_left]
        simp [hc.1]
      · rw [ih (c :: acc) 0]
        simp

theorem renderNodes_line (line linkUrl : String) :
    renderNodes (inlineNodesForLine line linkUrl) = line.data := by
  unfold inlineNodesForLine
  split
  · next h => rw [h]; rfl
  · split
    · simp [renderNodes, nodeText]
    · next hcond =>
      have hne : linkUrl ≠ "" := by
        intro hu
        apply hcond
        simp [hu]
      rw [renderNodes_ilGo (string_data_ne hne) line.data [] 0]
      simp

theorem splitNl_ne_nil (l : List Char) : splitNl l ≠ [] := by
  induction l with
  | nil => simp [splitNl]
  | cons c t ih =>
    unfold splitNl
    split
    · simp
    · cases h : splitNl t with
      | nil => exact absurd h ih
      | cons s ss => simp [consHead]

theorem intercalateNl_consHead (c : Char) :
    ∀ {ls : List (List Char)}, ls ≠ [] →
      intercalateNl (consHead c ls) = c :: intercalateNl ls := by
  intro ls h
  cases ls with
  | nil => exact absurd rfl h
  | cons s ss =>
    cases ss with
    | nil => rfl
    | cons s2 ss2 => rfl

theorem intercalateNl_splitNl (l : List Char) : intercalateNl (splitNl l) = l := by
  induction l with
  | nil => rfl
  | cons c t ih =>
    unfold splitNl
    split
    · next hc =>
      cases h : splitNl t with
      | nil => exact absurd h (splitNl_ne_nil t)
      | cons s ss =>
        show intercalateNl ([] :: s :: ss) = c :: t
        show [] ++ '\n' :: intercalateNl (s :: ss) = c :: t
        rw [← h, ih]
        simp [hc]
    · next hc =>
      rw [intercalateNl_consHead c (splitNl_ne_nil t), ih]

theorem renderNodes_paraNodes (linkUrl : String) :
    ∀ ls : List (List Char), renderNodes (paraNodes linkUrl ls) = intercalateNl ls := by
  intro ls
  induction ls with
  | nil => rfl
  | cons l ls2 ih =>
    cases ls2 with
    | nil =>
      show renderNodes (inlineNodesForLine (String.mk l) linkUrl) = intercalateNl [l]
      rw [renderNodes_line]
      rfl
    | cons l2 ls3 =>
      show renderNodes (inlineNodesForLine (String.mk l) linkUrl ++
        Inline.hardBreak :: paraNodes linkUrl (l2 :: ls3)) = intercalateNl (l :: l2 :: ls3)
      rw [renderNodes_append, renderNodes_line]
      have h2 : renderNodes (Inline.hardBreak :: paraNodes linkUrl (l2 :: ls3)) =
          '\n' :: renderNodes (paraNodes linkUrl (l2 :: ls3)) := by
        simp [renderNodes, nodeText]
      rw [h2, ih]
      rfl

/-- C10: auto-linking is lossless.  Concatenating the text of the
inline nodes produced for a line reproduces the line exactly, for every
line and URL; and rendering a built paragraph's nodes — a newline at
each hard break — reproduces the original paragraph text. -/
theorem c10_autolink_lossless :
    (∀ line linkUrl : String,
      String.mk (renderNodes (inlineNodesForLine line linkUrl)) = line) ∧
    (∀ paraText linkUrl : String,
      String.mk (renderNodes (buildAdfParagraph paraText linkUrl).content) = paraText) := by
  refine ⟨?_, ?_⟩
  · intro line linkUrl
    rw [renderNodes_line]
  · intro paraText linkUrl
    show String.mk (renderNodes (paraNodes linkUrl (splitNl paraText.data))) = paraText
    rw [renderNodes_paraNodes, intercalateNl_splitNl]

theorem segsGo_ne_nil (pat : List Char) :
    ∀ (l acc : List Char) (s : Nat), segsGo pat acc s l ≠ [] := by
  intro l
  induction l with
  | nil => intro acc s; simp [segsGo]
  | cons c t ih =>
    intro acc s
    cases s with
    | succ s' => exact ih acc s'
    | zero =>
      show (if pat.isPrefixOf (c :: t) then acc.reverse :: segsGo pat [] (pat.length - 1) t
            else segsGo pat (c :: acc) 0 t) ≠ []
      split
      · simp
      · exact ih (c :: acc) 0

theorem flushAcc_eq_flushSeg (acc : List Char) : flushAcc acc = flushSeg acc.reverse := by
  unfold flushAcc flushSeg
  by_cases h : acc = []
  · simp [h]
  · have h1 : acc.isEmpty = false := by simpa [List.isEmpty_iff] using h
    have h2 : acc.reverse.isEmpty = false := by simpa [List.isEmpty_iff] using h
    rw [h1, h2]

theorem ilGo_eq_interleave {url : List Char} :
    ∀ (l acc : List Char) (s : Nat),
      ilGo url acc s l = interleaveNodes (String.mk url) (segsGo url acc s l) := by
  intro l
  induction l with
  | nil =>
    intro acc s
    have h1 : ilGo url acc s [] = flushAcc acc := by cases s <;> rfl
    have h2 : segsGo url acc s [] = [ acc.reverse] := by cases s <;> rfl
    rw [h1, h2, flushAcc_eq_flushSeg]
    rfl
  | cons c t ih =>
    intro acc s
    cases s with
    | succ s' => exact ih acc s'
    | zero =>
      show (if url.isPrefixOf (c :: t) then
              flushAcc acc ++ Inline.linkText (String.mk url) (String.mk url) ::
                ilGo url [] (url.length - 1) t
            else ilGo url (c :: acc) 0 t) =
          interleaveNodes (String.mk url)
            (if url.isPrefixOf (c :: t) then acc.reverse :: segsGo url [] (url.length - 1) t
             else segsGo url (c :: acc) 0 t)
      split
      · cases h2 : segsGo url [] (url.length - 1) t with
        | nil => exact absurd h2 (segsGo_ne_nil url t [] (url.length - 1))
        | cons s1 ss =>
          show flushAcc acc ++ Inline.linkText (String.mk url) (String.mk url) ::
              ilGo url [] (url.length - 1) t =
            interleaveNodes (String.mk url) (acc.reverse :: s1 :: ss)
          show flushAcc acc ++ Inline.linkText (String.mk url) (String.mk url) ::
              ilGo url [] (url.length - 1) t =
            flushSeg acc.reverse ++ Inline.linkText (String.mk url) (String.mk url) ::
              interleaveNodes (String.mk url) (s1 :: ss)
          rw [flushAcc_eq_flushSeg, ih [] (url.length - 1), h2]
      · exact ih (c :: acc) 0

theorem linkRunCount_flushSeg (seg : List Char) : linkRunCount (flushSeg seg) = 0 := by
  unfold flushSeg
  split
  · rfl
  · rfl

theorem linkRunCount_interleave (u : String) :
    ∀ segs : List (List Char), segs ≠ [] →
      linkRunCount (interleaveNodes u segs) = segs.length - 1 := by
  intro segs
  induction segs with
  | nil => intro h; exact absurd rfl h
  | cons s ss ih =>
    intro _
    cases ss with
    | nil =>
      show linkRunCount (flushSeg s) = 0
      exact linkRunCount_flushSeg s
    | cons s2 ss2 =>
      show linkRunCount (flushSeg s ++ Inline.linkText u u :: interleaveNodes u (s2 :: ss2)) =
        (s :: s2 :: ss2).length - 1
      have h2 := ih (by simp)
      unfold linkRunCount at h2 ⊢
      rw [List.countP_append, List.countP_cons]
      have h3 : List.countP (fun n => match n with | Inline.linkText _ _ => true | _ => false)
          (flushSeg s) = 0 := linkRunCount_flushSeg s
      rw [h3, h2]
      simp

theorem segsGo_length (pat : List Char) :
    ∀ (l acc : List Char) (s : Nat),
      (segsGo pat acc s l).length = countOccGo pat s l + 1 := by
  intro l
  induction l with
  | nil => intro acc s; simp [segsGo, countOccGo]
  | cons c t ih =>
    intro acc s
    cases s with
    | succ s' => exact ih acc s'
    | zero =>
      show (if pat.isPrefixOf (c :: t) then acc.reverse :: segsGo pat [] (pat.length - 1) t
            else segsGo pat (c :: acc) 0 t).length =
        (if pat.isPrefixOf (c :: t) then 1 + countOccGo pat (pat.length - 1) t
         else countOccGo pat 0 t) + 1
      split
      · simp [ih [] (pat.length - 1)]
        omega
      · exact ih (c :: acc) 0

theorem segsGo_no_match {pat : List Char} :
    ∀ {l : List Char} (acc : List Char), containsL pat l = false →
      segsGo pat acc 0 l = [ acc.reverse ++ l] := by
  intro l
  induction l with
  | nil => intro acc _; simp [segsGo]
  | cons c t ih =>
    intro acc h
    unfold containsL at h
    rw [Bool.or_eq_false_iff] at h
    show (if pat.isPrefixOf (c :: t) then acc.reverse :: segsGo pat [] (pat.length - 1) t
          else segsGo pat (c :: acc) 0 t) = [ acc.reverse ++ c :: t]
    rw [if_neg (by simp [h.1])]
    rw [ih (c :: acc) h.2]
    simp

theorem countOcc_no_match {pat : List Char} :
    ∀ {l : List Char}, containsL pat l = false → countOccGo pat 0 l = 0 := by
  intro l
  induction l with
  | nil => intro _; rfl
  | cons c t ih =>
    intro h
    unfold containsL at h
    rw [Bool.or_eq_false_iff] at h
    show (if pat.isPrefixOf (c :: t) then 1 + countOccGo pat (pat.length - 1) t
          else countOccGo pat 0 t) = 0
    rw [if_neg (by simp [h.1])]
    exact ih h.2

theorem interleave_link_mem {u : String} :
    ∀ {segs : List (List Char)} {s h : String},
      Inline.linkText s h ∈ interleaveNodes u segs → s = u ∧ h = u := by
  intro segs
  induction segs with
  | nil => intro s h hm; simp [interleaveNodes] at hm
  | cons sg ss ih =>
    intro s h hm
    cases ss with
    | nil =>
      have hm2 : Inline.linkText s h ∈ flushSeg sg := hm
      unfold flushSeg at hm2
      split at hm2
      · simp at hm2
      · simp at hm2
    | cons s2 ss2 =>
      have hm2 : Inline.linkText s h ∈
          flushSeg sg ++ Inline.linkText u u :: interleaveNodes u (s2 :: ss2) := hm
      rw [List.mem_append] at hm2
      rcases hm2 with hin | hin
      · exfalso
        unfold flushSeg at hin
        split at hin
        · simp at hin
        · simp at hin
      · rw [List.mem_cons] at hin
        rcases hin with heq | hin
        · injection heq with h1 h2
          exact ⟨h1, h2⟩
        · exact ih hin

/-- C5: for a non-empty URL, the inline nodes of a line are exactly the
canonical interleaving of the line's URL-split segments with one
link-marked run per occurrence; hence the number of link runs equals
the number of non-overlapping left-to-right URL occurrences, the
segment decomposition has exactly one more segment than that count,
and every link-marked run carries the URL as both text and target. -/
theorem c5_inline_link_runs :
    ∀ (line linkUrl : String), linkUrl ≠ "" →
      inlineNodesForLine line linkUrl = interleaveNodes linkUrl (splitOcc line linkUrl) ∧
      linkRunCount (inlineNodesForLine line linkUrl) = countOcc line linkUrl ∧
      (splitOcc line linkUrl).length = countOcc line linkUrl + 1 ∧
      (∀ s h : String, Inline.linkText s h ∈ inlineNodesForLine line linkUrl →
        s = linkUrl ∧ h = linkUrl) := by
  intro line linkUrl hne
  have heq : inlineNodesForLine line linkUrl =
      interleaveNodes linkUrl (splitOcc line linkUrl) := by
    unfold inlineNodesForLine splitOcc
    split
    · next h1 =>
      rw [h1]
      rfl
    · next h1 =>
      split
      · next h2 =>
        have hc : containsS line linkUrl = false := by
          simpa [hne] using h2
        have hc2 : containsL linkUrl.data line.data = false := hc
        rw [segsGo_no_match [] hc2]
        show [ Inline.text line] = interleaveNodes linkUrl [ [].reverse ++ line.data]
        have h3 : ([] : List Char).reverse ++ line.data = line.data := by simp
        rw [h3]
        show [ Inline.text line] = flushSeg line.data
        unfold flushSeg
        rw [if_neg (by simpa [List.isEmpty_iff] using string_data_ne h1)]
      · rw [ilGo_eq_interleave line.data [] 0, string_eta]
  have hnn : splitOcc line linkUrl ≠ [] := segsGo_ne_nil linkUrl.data line.data [] 0
  have hlen : (splitOcc line linkUrl).length = countOcc line linkUrl + 1 :=
    segsGo_length linkUrl.data line.data [] 0
  refine ⟨heq, ?_, hlen, ?_⟩
  · rw [heq, linkRunCount_interleave linkUrl (splitOcc line linkUrl) hnn, hlen]
    omega
  · intro s h hm
    rw [heq] at hm
    exact interleave_link_mem hm

/-- C5 witness: the theorem applied at a line with two URL occurrences. -/
theorem c5_inline_link_runs_witness :
    linkRunCount (inlineNodesForLine "a http://u b http://u" "http://u") =
      countOcc "a http://u b http://u" "http://u" ∧
    countOcc "a http://u b http://u" "http://u" = 2 := by
  refine ⟨?_, by decide⟩
  exact (c5_inline_link_runs "a http://u b http://u" "http://u" (by decide)).2.1

theorem nlRunOk_cons_other {c : Char} (hc : ¬ c = '\n') (n : Nat) (r : List Char) :
    nlRunOk n (c :: r) = nlRunOk 0 r := by
  simp only [nlRunOk]
  rw [if_neg hc]

theorem nlRunOk_cons_nl (n : Nat) (r : List Char) :
    nlRunOk n ('\n' :: r) = if n < 2 then nlRunOk (n+1) r else false := rfl

theorem nlRunOk_emit_end (p : Nat) : nlRunOk 0 (emitNl p) = true := by
  unfold emitNl
  split
  · decide
  · next hp =>
    interval_cases p
    · decide
    · decide
    · decide

theorem nlRunOk_emit {c : Char} (hc : ¬ c = '\n') (p : Nat) (r : List Char) :
    nlRunOk 0 (emitNl p ++ c :: r) = nlRunOk 0 r := by
  unfold emitNl
  split
  · show nlRunOk 0 ('\n' :: '\n' :: c :: r) = nlRunOk 0 r
    rw [nlRunOk_cons_nl, if_pos (by omega), nlRunOk_cons_nl, if_pos (by omega),
      nlRunOk_cons_other hc]
  · next hp =>
    interval_cases p
    · show nlRunOk 0 (c :: r) = nlRunOk 0 r
      rw [nlRunOk_cons_other hc]
    · show nlRunOk 0 ('\n' :: c :: r) = nlRunOk 0 r
      rw [nlRunOk_cons_nl, if_pos (by omega), nlRunOk_cons_other hc]
    · show nlRunOk 0 ('\n' :: '\n' :: c :: r) = nlRunOk 0 r
      rw [nlRunOk_cons_nl, if_pos (by omega), nlRunOk_cons_nl, if_pos (by omega),
        nlRunOk_cons_other hc]

theorem collapse_no_triple : ∀ (l : List Char) (p : Nat),
    nlRunOk 0 (collapseAux p l) = true := by
  intro l
  induction l with
  | nil => intro p; exact nlRunOk_emit_end p
  | cons c t ih =>
    intro p
    unfold collapseAux
    split
    · exact ih (p+1)
    · next hc => rw [nlRunOk_emit hc p (collapseAux 0 t)]; exact ih 0

theorem nlRunOk_mono {m n : Nat} (h : m ≤ n) :
    ∀ {l : List Char}, nlRunOk n l = true → nlRunOk m l = true := by
  intro l
  induction l generalizing m n with
  | nil => intro _; rfl
  | cons c t ih =>
    intro hok
    by_cases hc : c = '\n'
    · subst hc
      rw [nlRunOk_cons_nl] at hok ⊢
      split at hok
      · next hn =>
        rw [if_pos (by omega)]
        exact ih (by omega) hok
      · cases hok
    · rw [nlRunOk_cons_other hc] at hok ⊢
      exact hok

theorem nlRunOk_suffix {a b : List Char} :
    ∀ {n : Nat}, nlRunOk n (a ++ b) = true → nlRunOk 0 b = true := by
  induction a with
  | nil => intro n h; exact nlRunOk_mono (Nat.zero_le n) h
  | cons c a' ih =>
    intro n h
    by_cases hc : c = '\n'
    · subst hc
      rw [List.cons_append, nlRunOk_cons_nl] at h
      split at h
      · exact ih h
      · cases h
    · rw [List.cons_append, nlRunOk_cons_other hc] at h
      exact ih h

theorem nlRunOk_append_left {b : List Char} :
    ∀ {a : List Char} {n : Nat}, nlRunOk n (a ++ b) = true → nlRunOk n a = true := by
  intro a
  induction a with
  | nil => intro n _; rfl
  | cons c a' ih =>
    intro n h
    by_cases hc : c = '\n'
    · subst hc
      rw [List.cons_append, nlRunOk_cons_nl] at h
      rw [nlRunOk_cons_nl]
      split at h
      · next hn => rw [if_pos hn]; exact ih h
      · cases h
    · rw [List.cons_append, nlRunOk_cons_other hc] at h
      rw [nlRunOk_cons_other hc]
      exact ih h

theorem jsTrim_decomp (l : List Char) : ∃ a b, l = a ++ jsTrimList l ++ b := by
  obtain ⟨a, ha⟩ : ∃ a, a ++ l.dropWhile jsWs = l := List.dropWhile_suffix jsWs
  obtain ⟨w2, hw2⟩ : ∃ w2, w2 ++ (l.dropWhile jsWs).reverse.dropWhile jsWs =
      (l.dropWhile jsWs).reverse := List.dropWhile_suffix jsWs
  refine ⟨a, w2.reverse, ?_⟩
  have h3 : l.dropWhile jsWs = jsTrimList l ++ w2.reverse := by
    have h4 := congrArg List.reverse hw2
    simpa [jsTrimList] using h4.symm
  conv_lhs => rw [← ha, h3]
  rw [List.append_assoc]

/-- C3: the output of `renderTemplate` never contains three or more
consecutive newline characters, for every template and every variable
mapping (values with arbitrary newline runs included): the final
`\n{3,} → \n\n` collapse leaves only runs of at most two newlines and
the trailing trim cannot create one. -/
theorem c3_render_template_no_triple_newline :
    ∀ (template : String) (vars : Vars),
      noTripleNewline (renderTemplate template vars) = true := by
  intro template vars
  have hdata : ∀ X : List Char, (String.mk X).data = X := fun _ => rfl
  unfold noTripleNewline renderTemplate
  rw [hdata]
  have h1 : nlRunOk 0 (collapseNl (renderCore template.data vars)) = true :=
    collapse_no_triple _ 0
  obtain ⟨a, b, hab⟩ := jsTrim_decomp (collapseNl (renderCore template.data vars))
  rw [hab, List.append_assoc] at h1
  exact nlRunOk_append_left (nlRunOk_suffix h1)

/-- C1 counterexample: a page whose subject holds only a bare key
(`ABC-1`) while the commit message holds a tracker tag with a different
key (`jira: XYZ-2`).  The claimed priority (subject tag, then commit
tag, then subject bare key) would return `XYZ-2`; the code returns the
subject's bare key `ABC-1`, because each text source is exhausted for
both patterns before the next source is consulted. -/
theorem c1_extract_priority_counterexample :
    extractIssueKey (PageState.mk "ABC-1 fix" "" "jira: XYZ-2" "" [] []) = some "ABC-1" ∧
    findTagKey ("ABC-1 fix").data = none ∧
    extractIssueKeyFromText "jira: XYZ-2" = some "XYZ-2" := by
  refine ⟨by decide, by decide, by decide⟩

/-- C1 amended: the main variant resolves the key per text source, tag
pattern before bare pattern inside each source, in the source order
subject, document title, commit message, then the fallbacks (page-text
sample, joined shadow text, broad selector scan); the result is null
exactly when every source yields nothing.  The second variant prefers
a commit-message tag over a (case-sensitive) bare subject key. -/
theorem c1_extract_priority_amended :
    (∀ (p : PageState) (k : String),
      extractIssueKeyFromText p.subject = some k → extractIssueKey p = some k) ∧
    (∀ (p : PageState) (k : String),
      extractIssueKeyFromText p.subject = none →
      extractIssueKeyFromText p.title = some k → extractIssueKey p = some k) ∧
    (∀ (p : PageState) (k : String),
      extractIssueKeyFromText p.subject = none →
      extractIssueKeyFromText p.title = none →
      extractIssueKeyFromText p.commitText = some k → extractIssueKey p = some k) ∧
    (∀ p : PageState, extractIssueKey p = none ↔
      (extractIssueKeyFromText p.subject = none ∧
       extractIssueKeyFromText p.title = none ∧
       extractIssueKeyFromText p.commitText = none ∧
       extractIssueKeyFromText (String.mk (p.bodyText.data.take 60000)) = none ∧
       ((shadowJoinedChunks p).isEmpty = false →
         extractIssueKeyFromText (joinNl (shadowJoinedChunks p)) = none) ∧
       firstBroad p.broadTexts = none)) ∧
    (∀ (q : PageStateV2) (k : String),
      findTagV2 q.commitTexts = some k → extractIssueKeyV2 q = some k) ∧
    (∀ q : PageStateV2, findTagV2 q.commitTexts = none →
      extractIssueKeyV2 q = (findBareKey false q.subject.data).map String.mk) := by
  refine ⟨?_, ?_, ?_, ?_, ?_, ?_⟩
  · intro p k h
    simp [extractIssueKey, h]
  · intro p k h1 h2
    simp [extractIssueKey, h1, h2]
  · intro p k h1 h2 h3
    simp [extractIssueKey, h1, h2, h3]
  · intro p
    cases h1 : extractIssueKeyFromText p.subject with
    | some k => simp [extractIssueKey, h1]
    | none =>
      cases h2 : extractIssueKeyFromText p.title with
      | some k => simp [extractIssueKey, h1, h2]
      | none =>
        cases h3 : extractIssueKeyFromText p.commitText with
        | some k => simp [extractIssueKey, h1, h2, h3]
        | none =>
          cases h4 : extractIssueKeyFromText (String.mk (p.bodyText.data.take 60000)) with
          | some k => simp [extractIssueKey, h1, h2, h3, h4]
          | none =>
            cases he : (shadowJoinedChunks p).isEmpty with
            | true => simp [extractIssueKey, h1, h2, h3, h4, he]
            | false =>
              cases h5 : extractIssueKeyFromText (joinNl (shadowJoinedChunks p)) with
              | some k => simp [extractIssueKey, h1, h2, h3, h4, he, h5]
              | none => simp [extractIssueKey, h1, h2, h3, h4, he, h5]
  · intro q k h
    simp [extractIssueKeyV2, h]
  · intro q h
    cases h2 : findBareKey false q.subject.data with
    | none => simp [extractIssueKeyV2, h, h2]
    | some k => simp [extractIssueKeyV2, h, h2]

/-- C1 witness: the amended priority conjuncts applied at concrete
pages. -/
theorem c1_extract_priority_witness :
    extractIssueKey (PageState.mk "see jira: TF-3" "x" "jira: TF-9" "" [] []) = some "TF-3" ∧
    extractIssueKey (PageState.mk "no key" "none" "jira: TF-9" "" [] []) = some "TF-9" ∧
    extractIssueKeyV2 (PageStateV2.mk [ "fix\njira: tf-9"] "ABC-1 x") = some "tf-9" := by
  refine ⟨?_, ?_, ?_⟩
  · exact c1_extract_priority_amended.1 (PageState.mk "see jira: TF-3" "x" "jira: TF-9" "" [] [])
      "TF-3" (by decide)
  · exact c1_extract_priority_amended.2.2.1 (PageState.mk "no key" "none" "jira: TF-9" "" [] [])
      "TF-9" (by decide) (by decide) (by decide)
  · exact c1_extract_priority_amended.2.2.2.2.1 (PageStateV2.mk [ "fix\njira: tf-9"] "ABC-1 x")
      "tf-9" (by decide)

theorem isPrefixOf_eq {l m : List Char} : l.isPrefixOf m = true ↔ l <+: m :=
  List.isPrefixOf_iff_prefix

theorem expandRep_one (m pre post : List Char) (c : Char) :
    expandRep m pre post [c] = if c = '$' then [ '$'] else [c] := rfl

theorem expandRep_two_not_dollar (m pre post : List Char) {c : Char} (hc : c ≠ '$')
    (d : Char) (r : List Char) :
    expandRep m pre post (c :: d :: r) = c :: expandRep m pre post (d :: r) := by
  rw [show expandRep m pre post (c :: d :: r) =
      (if c = '$' then
        (if d = '$' then '$' :: expandRep m pre post r
         else if d = '&' then m ++ expandRep m pre post r
         else if d = Char.ofNat 96 then pre ++ expandRep m pre post r
         else if d = Char.ofNat 39 then post ++ expandRep m pre post r
         else '$' :: d :: expandRep m pre post r)
      else c :: expandRep m pre post (d :: r)) from rfl]
  rw [if_neg hc]

theorem expandRep_no_dollar : ∀ {rep : List Char}, (∀ c ∈ rep, c ≠ '$') →
    ∀ m pre post, expandRep m pre post rep = rep
  | [], _, _, _, _ => rfl
  | [c], h, m, pre, post => by
      rw [expandRep_one, if_neg (h c (by simp))]
  | c :: d :: r, h, m, pre, post => by
      rw [expandRep_two_not_dollar m pre post (h c (by simp)) d r,
        expandRep_no_dollar (fun x hx => h x (by simp at hx ⊢; tauto)) m pre post]

theorem raGo_nil (pat rep orig : List Char) (s pos : Nat) : raGo pat rep orig s pos [] = [] := by
  cases s <;> rfl

theorem raGo_cons_zero (pat rep orig : List Char) (pos : Nat) (c : Char) (t : List Char) :
    raGo pat rep orig 0 pos (c :: t) =
      if pat.isPrefixOf (c :: t) then
        expandRep pat (orig.take pos) (orig.drop (pos + pat.length)) rep ++
          raGo pat rep orig (pat.length - 1) (pos + 1) t
      else c :: raGo pat rep orig 0 (pos + 1) t := rfl

theorem raGo_cons_succ (pat rep orig : List Char) (s pos : Nat) (c : Char) (t : List Char) :
    raGo pat rep orig (s+1) pos (c :: t) = raGo pat rep orig s (pos+1) t := rfl

theorem raGo_skip (pat rep orig : List Char) :
    ∀ (l r : List Char) (pos : Nat),
      raGo pat rep orig l.length pos (l ++ r) = raGo pat rep orig 0 (pos + l.length) r := by
  intro l
  induction l with
  | nil => intro r pos; rfl
  | cons c t ih =>
    intro r pos
    rw [List.cons_append, show (c :: t).length = t.length + 1 from rfl,
      raGo_cons_succ, ih r (pos+1)]
    congr 1
    omega

theorem isPrefixOf_head_false {p0 c : Char} (h : p0 ≠ c) (pt l : List Char) :
    (p0 :: pt).isPrefixOf (c :: l) = false := by
  show (p0 == c && pt.isPrefixOf l) = false
  have hbe : (p0 == c) = false := by
    simp only [beq_eq_false_iff_ne, ne_eq]
    exact h
  rw [hbe]
  rfl

theorem raGo_plain {pat : List Char} (hh : pat.head? = some '{') (rep orig : List Char) :
    ∀ (x : List Char), noLBrace x = true → ∀ (r : List Char) (pos : Nat),
      raGo pat rep orig 0 pos (x ++ r) = x ++ raGo pat rep orig 0 (pos + x.length) r := by
  intro x
  induction x with
  | nil => intro _ r pos; simp
  | cons c t ih =>
    intro hx r pos
    have hc : c ≠ '{' := by
      have h1 : (c ≠ '{' : Bool) ∧ noLBrace t = true := by
        simpa [noLBrace] using hx
      simpa using h1.1
    have ht : noLBrace t = true := by
      have h1 : (c ≠ '{' : Bool) ∧ noLBrace t = true := by
        simpa [noLBrace] using hx
      exact h1.2
    obtain ⟨p0, pt, rfl⟩ : ∃ p0 pt, pat = p0 :: pt := by
      cases pat with
      | nil => simp at hh
      | cons a b => exact ⟨a, b, rfl⟩
    have hp0 : p0 = '{' := by simpa using hh
    have hnp : (p0 :: pt).isPrefixOf (c :: (t ++ r)) = false := by
      apply isPrefixOf_head_false
      rw [hp0]
      exact fun hcl => hc hcl.symm
    rw [List.cons_append, raGo_cons_zero, hnp]
    show c :: raGo (p0 :: pt) rep orig 0 (pos + 1) (t ++ r) = (c :: t) ++ _
    have hp : pos + 1 + t.length = pos + (c :: t).length := by
      rw [List.length_cons]
      omega
    rw [ih ht r (pos + 1), hp, List.cons_append]

theorem raGo_match {pat rep orig : List Char} (hne : pat ≠ [])
    (hrep : ∀ c ∈ rep, c ≠ '$') (r : List Char) (pos : Nat) :
    raGo pat rep orig 0 pos (pat ++ r) = rep ++ raGo pat rep orig 0 (pos + pat.length) r := by
  obtain ⟨p0, pt, rfl⟩ := List.exists_cons_of_ne_nil hne
  rw [List.cons_append, raGo_cons_zero]
  have hpre : (p0 :: pt).isPrefixOf (p0 :: (pt ++ r)) = true := by
    apply isPrefixOf_eq.mpr
    rw [← List.cons_append]
    exact List.prefix_append _ _
  rw [hpre]
  rw [if_pos rfl]
  rw [expandRep_no_dollar hrep]
  rw [show (p0 :: pt).length - 1 = pt.length from by simp]
  rw [raGo_skip]
  have hlen : pos + 1 + pt.length = pos + (p0 :: pt).length := by
    rw [List.length_cons]
    omega
  rw [hlen]

theorem phAt_head : ∀ i : Fin 8, (phAt i).head? = some '{' := by decide

theorem phAt_ne_nil : ∀ i : Fin 8, phAt i ≠ [] := by decide

theorem phAt_isEmpty : ∀ i : Fin 8, (phAt i).isEmpty = false := by decide

theorem raGo_other {rep orig : List Char} {i j : Fin 8} (hij : i ≠ j) (pos : Nat) (r : List Char) :
    raGo (phAt i) rep orig 0 pos (phAt j ++ r) =
      phAt j ++ raGo (phAt i) rep orig 0 (pos + (phAt j).length) r := by
  fin_cases i <;> fin_cases j <;> first
    | exact absurd rfl hij
    | rfl

theorem simulGo_nil (vars : Vars) (s : Nat) : simulGo vars s [] = [] := by
  cases s <;> rfl

theorem simulGo_cons_zero (vars : Vars) (c : Char) (t : List Char) :
    simulGo vars 0 (c :: t) =
      match findPh vars (c :: t) with
      | some (val, len) => val ++ simulGo vars (len - 1) t
      | none => c :: simulGo vars 0 t := rfl

theorem findPh_at (vars : Vars) (i : Fin 8) (r : List Char) :
    findPh vars (phAt i ++ r) = some (varAt vars i, (phAt i).length) := by
  fin_cases i
  · show findPh vars ("{title}".data ++ r) = some (vars.title.data, 7)
    unfold findPh
    rw [show ("{title}".data).isPrefixOf ("{title}".data ++ r) = true from isPrefixOf_eq.mpr (List.prefix_append _ _)]
    simp
  · show findPh vars ("{body}".data ++ r) = some (vars.body.data, 6)
    unfold findPh
    rw [show ("{title}".data).isPrefixOf ("{body}".data ++ r) = false from rfl,
      show ("{body}".data).isPrefixOf ("{body}".data ++ r) = true from isPrefixOf_eq.mpr (List.prefix_append _ _)]
    simp
  · show findPh vars ("{branch}".data ++ r) = some (vars.branch.data, 8)
    unfold findPh
    rw [show ("{title}".data).isPrefixOf ("{branch}".data ++ r) = false from rfl,
      show ("{body}".data).isPrefixOf ("{branch}".data ++ r) = false from rfl,
      show ("{branch}".data).isPrefixOf ("{branch}".data ++ r) = true from isPrefixOf_eq.mpr (List.prefix_append _ _)]
    simp
  · show findPh vars ("{change_num}".data ++ r) = some (vars.changeNum.data, 12)
    unfold findPh
    rw [show ("{title}".data).isPrefixOf ("{change_num}".data ++ r) = false from rfl,
      show ("{body}".data).isPrefixOf ("{change_num}".data ++ r) = false from rfl,
      show ("{branch}".data).isPrefixOf ("{change_num}".data ++ r) = false from rfl,
      show ("{change_num}".data).isPrefixOf ("{change_num}".data ++ r) = true from isPrefixOf_eq.mpr (List.prefix_append _ _)]
    simp
  · show findPh vars ("{project}".data ++ r) = some (vars.project.data, 9)
    unfold findPh
    rw [show ("{title}".data).isPrefixOf ("{project}".data ++ r) = false from rfl,
      show ("{body}".data).isPrefixOf ("{project}".data ++ r) = false from rfl,
      show ("{branch}".data).isPrefixOf ("{project}".data ++ r) = false from rfl,
      show ("{change_num}".data).isPrefixOf ("{project}".data ++ r) = false from rfl,
      show ("{project}".data).isPrefixOf ("{project}".data ++ r) = true from isPrefixOf_eq.mpr (List.prefix_append _ _)]
    simp
  · show findPh vars ("{owner}".data ++ r) = some (vars.owner.data, 7)
    unfold findPh
    rw [show ("{title}".data).isPrefixOf ("{owner}".data ++ r) = false from rfl,
      show ("{body}".data).isPrefixOf ("{owner}".data ++ r) = false from rfl,
      show ("{branch}".data).isPrefixOf ("{owner}".data ++ r) = false from rfl,
      show ("{change_num}".data).isPrefixOf ("{owner}".data ++ r) = false from rfl,
      show ("{project}".data).isPrefixOf ("{owner}".data ++ r) = false from rfl,
      show ("{owner}".data).isPrefixOf ("{owner}".data ++ r) = true from isPrefixOf_eq.mpr (List.prefix_append _ _)]
    simp
  · show findPh vars ("{date}".data ++ r) = some (vars.date.data, 6)
    unfold findPh
    rw [show ("{title}".data).isPrefixOf ("{date}".data ++ r) = false from rfl,
      show ("{body}".data).isPrefixOf ("{date}".data ++ r) = false from rfl,
      show ("{branch}".data).isPrefixOf ("{date}".data ++ r) = false from rfl,
      show ("{change_num}".data).isPrefixOf ("{date}".data ++ r) = false from rfl,
      show ("{project}".data).isPrefixOf ("{date}".data ++ r) = false from rfl,
      show ("{owner}".data).isPrefixOf ("{date}".data ++ r) = false from rfl,
      show ("{date}".data).isPrefixOf ("{date}".data ++ r) = true from isPrefixOf_eq.mpr (List.prefix_append _ _)]
    simp
  · show findPh vars ("{url}".data ++ r) = some (vars.url.data, 5)
    unfold findPh
    rw [show ("{title}".data).isPrefixOf ("{url}".data ++ r) = false from rfl,
      show ("{body}".data).isPrefixOf ("{url}".data ++ r) = false from rfl,
      show ("{branch}".data).isPrefixOf ("{url}".data ++ r) = false from rfl,
      show ("{change_num}".data).isPrefixOf ("{url}".data ++ r) = false from rfl,
      show ("{project}".data).isPrefixOf ("{url}".data ++ r) = false from rfl,
      show ("{owner}".data).isPrefixOf ("{url}".data ++ r) = false from rfl,
      show ("{date}".data).isPrefixOf ("{url}".data ++ r) = false from rfl,
      show ("{url}".data).isPrefixOf ("{url}".data ++ r) = true from isPrefixOf_eq.mpr (List.prefix_append _ _)]
    simp

theorem simulGo_skip (vars : Vars) :
    ∀ (l r : List Char), simulGo vars l.length (l ++ r) = simulGo vars 0 r := by
  intro l
  induction l with
  | nil => intro r; rfl
  | cons c t ih =>
    intro r
    show simulGo vars t.length (t ++ r) = simulGo vars 0 r
    exact ih r

theorem simulGo_at (vars : Vars) (i : Fin 8) (r : List Char) :
    simulGo vars 0 (phAt i ++ r) = varAt vars i ++ simulGo vars 0 r := by
  obtain ⟨c, t, hct⟩ := List.exists_cons_of_ne_nil (phAt_ne_nil i)
  rw [hct, List.cons_append, simulGo_cons_zero, ← List.cons_append, ← hct, findPh_at]
  show varAt vars i ++ simulGo vars ((phAt i).length - 1) (t ++ r) =
    varAt vars i ++ simulGo vars 0 r
  have hlen : (phAt i).length - 1 = t.length := by
    rw [hct]
    simp
  rw [hlen, simulGo_skip]


theorem findPh_none {vars : Vars} {c : Char} (hc : c ≠ '{') (t : List Char) :
    findPh vars (c :: t) = none := by
  have hb : ∀ pt : List Char, ('{' :: pt).isPrefixOf (c :: t) = false :=
    fun pt => isPrefixOf_head_false (fun h => hc h.symm) pt t
  unfold findPh
  rw [show "{title}".data = '{' :: "title\x7d".data from rfl, hb,
    show "{body}".data = '{' :: "body\x7d".data from rfl, hb,
    show "{branch}".data = '{' :: "branch\x7d".data from rfl, hb,
    show "{change_num}".data = '{' :: "change_num\x7d".data from rfl, hb,
    show "{project}".data = '{' :: "project\x7d".data from rfl, hb,
    show "{owner}".data = '{' :: "owner\x7d".data from rfl, hb,
    show "{date}".data = '{' :: "date\x7d".data from rfl, hb,
    show "{url}".data = '{' :: "url\x7d".data from rfl, hb]
  rfl

theorem simulGo_plain (vars : Vars) :
    ∀ (x : List Char), noLBrace x = true → ∀ (r : List Char),
      simulGo vars 0 (x ++ r) = x ++ simulGo vars 0 r := by
  intro x
  induction x with
  | nil => intro _ r; rfl
  | cons c t ih =>
    intro hx r
    have hsplit : (c ≠ '{' : Bool) ∧ noLBrace t = true := by
      simpa [noLBrace] using hx
    have hc : c ≠ '{' := by simpa using hsplit.1
    rw [List.cons_append, simulGo_cons_zero, findPh_none hc, ih hsplit.2 r, List.cons_append]

theorem goodSegs_cons_inl {x : List Char} {rest : List TmplSeg}
    (h : goodSegs (Sum.inl x :: rest) = true) : noLBrace x = true ∧ goodSegs rest = true := by
  simpa [goodSegs] using h

theorem goodSegs_cons_inr {j : Fin 8} {rest : List TmplSeg}
    (h : goodSegs (Sum.inr j :: rest) = true) : goodSegs rest = true := by
  simpa [goodSegs] using h

theorem cleanVars_parts {vars : Vars} (h : cleanVars vars = true) (i : Fin 8) :
    (∀ c ∈ varAt vars i, c ≠ '$') ∧ noLBrace (varAt vars i) = true := by
  have hmem : cleanVal (varAt vars i) = true := by
    have h2 : ∀ v ∈ varList vars, cleanVal v = true := List.all_eq_true.mp h
    apply h2
    fin_cases i <;> simp [varAt, varList]
  have h3 := List.all_eq_true.mp hmem
  constructor
  · intro c hc
    have h4 := h3 c hc
    simp at h4
    exact h4.2
  · unfold noLBrace
    rw [List.all_eq_true]
    intro c hc
    have h4 := h3 c hc
    simp at h4 ⊢
    exact h4.1

theorem raGo_assemble (vars : Vars) (i : Fin 8) (orig : List Char)
    (hrep : ∀ c ∈ varAt vars i, c ≠ '$') :
    ∀ (segs : List TmplSeg), goodSegs segs = true → ∀ pos : Nat,
      raGo (phAt i) (varAt vars i) orig 0 pos (assembleTmpl segs) =
        assembleTmpl (segs.map (substSeg vars i)) := by
  intro segs
  induction segs with
  | nil => intro _ pos; rfl
  | cons sg rest ih =>
    intro hgood pos
    cases sg with
    | inl x =>
      obtain ⟨hx, hrest⟩ := goodSegs_cons_inl hgood
      show raGo (phAt i) (varAt vars i) orig 0 pos (x ++ assembleTmpl rest) =
        x ++ assembleTmpl (rest.map (substSeg vars i))
      rw [raGo_plain (phAt_head i) (varAt vars i) orig x hx (assembleTmpl rest) pos,
        ih hrest (pos + x.length)]
    | inr j =>
      have hrest : goodSegs rest = true := goodSegs_cons_inr hgood
      by_cases hij : j = i
      · subst hij
        show raGo (phAt j) (varAt vars j) orig 0 pos (phAt j ++ assembleTmpl rest) =
          assembleTmpl (substSeg vars j (Sum.inr j) :: rest.map (substSeg vars j))
        rw [raGo_match (phAt_ne_nil j) hrep (assembleTmpl rest) pos, ih hrest _,
          show substSeg vars j (Sum.inr j) = Sum.inl (varAt vars j) from by simp [substSeg]]
        rfl
      · show raGo (phAt i) (varAt vars i) orig 0 pos (phAt j ++ assembleTmpl rest) =
          assembleTmpl (substSeg vars i (Sum.inr j) :: rest.map (substSeg vars i))
        rw [raGo_other (fun h => hij h.symm) pos (assembleTmpl rest), ih hrest _,
          show substSeg vars i (Sum.inr j) = Sum.inr j from by simp [substSeg, hij]]
        rfl

theorem replaceAllJs_assemble (vars : Vars) (i : Fin 8)
    (hrep : ∀ c ∈ varAt vars i, c ≠ '$')
    {segs : List TmplSeg} (hgood : goodSegs segs = true) :
    replaceAllJs (assembleTmpl segs) (phAt i) (varAt vars i) =
      assembleTmpl (segs.map (substSeg vars i)) := by
  unfold replaceAllJs
  rw [phAt_isEmpty i]
  show raGo (phAt i) (varAt vars i) (assembleTmpl segs) 0 0 (assembleTmpl segs) = _
  exact raGo_assemble vars i (assembleTmpl segs) hrep segs hgood 0

theorem goodSegs_map_subst (vars : Vars) (i : Fin 8) (hv : noLBrace (varAt vars i) = true) :
    ∀ {segs : List TmplSeg}, goodSegs segs = true →
      goodSegs (segs.map (substSeg vars i)) = true := by
  intro segs
  induction segs with
  | nil => intro _; rfl
  | cons sg rest ih =>
    intro h
    cases sg with
    | inl x =>
      obtain ⟨hx, hrest⟩ := goodSegs_cons_inl h
      have h2 := ih hrest
      show goodSegs (Sum.inl x :: rest.map (substSeg vars i)) = true
      simp [goodSegs] at h2 ⊢
      exact ⟨hx, h2⟩
    | inr j =>
      have hrest := goodSegs_cons_inr h
      have h2 := ih hrest
      by_cases hij : j = i
      · subst hij
        show goodSegs (substSeg vars j (Sum.inr j) :: rest.map (substSeg vars j)) = true
        rw [show substSeg vars j (Sum.inr j) = Sum.inl (varAt vars j) from by simp [substSeg]]
        simp [goodSegs] at h2 ⊢
        exact ⟨hv, h2⟩
      · show goodSegs (substSeg vars i (Sum.inr j) :: rest.map (substSeg vars i)) = true
        rw [show substSeg vars i (Sum.inr j) = Sum.inr j from by simp [substSeg, hij]]
        simp [goodSegs] at h2 ⊢
        exact h2

theorem chain_subst (vars : Vars) : ∀ s : TmplSeg,
    substSeg vars 7 (substSeg vars 6 (substSeg vars 5 (substSeg vars 4 (substSeg vars 3
      (substSeg vars 2 (substSeg vars 1 (substSeg vars 0 s))))))) = fullSubSeg vars s := by
  intro s
  cases s with
  | inl x => rfl
  | inr j => fin_cases j <;> rfl

theorem map_chain_subst (vars : Vars) : ∀ l : List TmplSeg,
    (((((((l.map (substSeg vars 0)).map (substSeg vars 1)).map (substSeg vars 2)).map
      (substSeg vars 3)).map (substSeg vars 4)).map (substSeg vars 5)).map
      (substSeg vars 6)).map (substSeg vars 7) = l.map (fullSubSeg vars) := by
  intro l
  induction l with
  | nil => rfl
  | cons s rest ih =>
    simp only [List.map_cons]
    rw [chain_subst vars s]
    rw [show ((((((((rest.map (substSeg vars 0)).map (substSeg vars 1)).map
      (substSeg vars 2)).map (substSeg vars 3)).map (substSeg vars 4)).map
      (substSeg vars 5)).map (substSeg vars 6)).map (substSeg vars 7)) =
        rest.map (fullSubSeg vars) from ih]

theorem assembleTmpl_fullSub (vars : Vars) :
    ∀ segs : List TmplSeg, assembleTmpl (segs.map (fullSubSeg vars)) = assembleSub vars segs := by
  intro segs
  induction segs with
  | nil => rfl
  | cons sg rest ih =>
    cases sg with
    | inl x =>
      show x ++ assembleTmpl (rest.map (fullSubSeg vars)) = x ++ assembleSub vars rest
      rw [ih]
    | inr j =>
      show varAt vars j ++ assembleTmpl (rest.map (fullSubSeg vars)) =
        varAt vars j ++ assembleSub vars rest
      rw [ih]

theorem renderCore_assemble (vars : Vars) {segs : List TmplSeg}
    (hgood : goodSegs segs = true) (hclean : cleanVars vars = true) :
    renderCore (assembleTmpl segs) vars = assembleSub vars segs := by
  have hd : ∀ i : Fin 8, ∀ c ∈ varAt vars i, c ≠ '$' := fun i => (cleanVars_parts hclean i).1
  have hb : ∀ i : Fin 8, noLBrace (varAt vars i) = true := fun i => (cleanVars_parts hclean i).2
  have g0 := hgood
  have g1 := goodSegs_map_subst vars 0 (hb 0) g0
  have g2 := goodSegs_map_subst vars 1 (hb 1) g1
  have g3 := goodSegs_map_subst vars 2 (hb 2) g2
  have g4 := goodSegs_map_subst vars 3 (hb 3) g3
  have g5 := goodSegs_map_subst vars 4 (hb 4) g4
  have g6 := goodSegs_map_subst vars 5 (hb 5) g5
  have g7 := goodSegs_map_subst vars 6 (hb 6) g6
  show replaceAllJs (replaceAllJs (replaceAllJs (replaceAllJs (replaceAllJs (replaceAllJs
    (replaceAllJs (replaceAllJs (assembleTmpl segs) (phAt 0) (varAt vars 0)) (phAt 1)
    (varAt vars 1)) (phAt 2) (varAt vars 2)) (phAt 3) (varAt vars 3)) (phAt 4)
    (varAt vars 4)) (phAt 5) (varAt vars 5)) (phAt 6) (varAt vars 6)) (phAt 7)
    (varAt vars 7) = assembleSub vars segs
  rw [replaceAllJs_assemble vars 0 (hd 0) g0, replaceAllJs_assemble vars 1 (hd 1) g1,
    replaceAllJs_assemble vars 2 (hd 2) g2, replaceAllJs_assemble vars 3 (hd 3) g3,
    replaceAllJs_assemble vars 4 (hd 4) g4, replaceAllJs_assemble vars 5 (hd 5) g5,
    replaceAllJs_assemble vars 6 (hd 6) g6, replaceAllJs_assemble vars 7 (hd 7) g7,
    map_chain_subst vars segs, assembleTmpl_fullSub vars segs]

theorem simulGo_assemble (vars : Vars) :
    ∀ {segs : List TmplSeg}, goodSegs segs = true →
      simulGo vars 0 (assembleTmpl segs) = assembleSub vars segs := by
  intro segs
  induction segs with
  | nil => intro _; rfl
  | cons sg rest ih =>
    intro h
    cases sg with
    | inl x =>
      obtain ⟨hx, hrest⟩ := goodSegs_cons_inl h
      show simulGo vars 0 (x ++ assembleTmpl rest) = x ++ assembleSub vars rest
      rw [simulGo_plain vars x hx, ih hrest]
    | inr j =>
      show simulGo vars 0 (phAt j ++ assembleTmpl rest) = varAt vars j ++ assembleSub vars rest
      rw [simulGo_at, ih (goodSegs_cons_inr h)]

theorem raGo_id {pat rep orig : List Char} :
    ∀ {l : List Char}, containsL pat l = false → ∀ pos, raGo pat rep orig 0 pos l = l := by
  intro l
  induction l with
  | nil => intro _ pos; rfl
  | cons c t ih =>
    intro h pos
    have h2 : pat.isPrefixOf (c :: t) = false ∧ containsL pat t = false := by
      simpa [containsL] using h
    rw [raGo_cons_zero, h2.1]
    show c :: raGo pat rep orig 0 (pos+1) t = c :: t
    rw [ih h2.2 (pos+1)]

theorem replaceAllJs_id {s pat rep : List Char} (h : containsL pat s = false) :
    replaceAllJs s pat rep = s := by
  unfold replaceAllJs
  split
  · rfl
  · exact raGo_id h 0

theorem noPh_parts {t : String} (h : noPhOccurs t = true) :
    containsL "{title}".data t.data = false ∧ containsL "{body}".data t.data = false ∧
    containsL "{branch}".data t.data = false ∧ containsL "{change_num}".data t.data = false ∧
    containsL "{project}".data t.data = false ∧ containsL "{owner}".data t.data = false ∧
    containsL "{date}".data t.data = false ∧ containsL "{url}".data t.data = false := by
  simpa [noPhOccurs, phList] using h

/-- C2 counterexample: the eight replacements run sequentially, so a
variable value that itself contains a later recognized placeholder is
rewritten again by the later rule — here `{title}` is replaced by the
title value `{body}`, which the next rule then replaces by `B`,
while the reference single-pass definition leaves `{body}` verbatim.
The two renderers therefore disagree, refuting the claimed equality
for all variable mappings. -/
theorem c2_render_template_counterexample :
    renderTemplate "{title}" (Vars.mk "{body}" "B" "" "" "" "" "" "") = "B" ∧
    renderTemplateSpec "{title}" (Vars.mk "{body}" "B" "" "" "" "" "" "") = "{body}" ∧
    renderTemplate "{title}" (Vars.mk "{body}" "B" "" "" "" "" "" "") ≠
      renderTemplateSpec "{title}" (Vars.mk "{body}" "B" "" "" "" "" "" "") := by
  refine ⟨by decide, by decide, by decide⟩

/-- C2 amended: `renderTemplate` agrees with the reference single-pass
definition whenever every brace of the template belongs to a
recognized placeholder occurrence (the template is an alternation of
brace-free literals and placeholders) and no variable value contains a
`{` or a `$` (JavaScript replacement-string escape); and for every
template containing no recognized placeholder the output is the
template unchanged except for the newline collapse and trim, for all
variable mappings. -/
theorem c2_render_template_amended :
    (∀ (segs : List TmplSeg) (vars : Vars), goodSegs segs = true → cleanVars vars = true →
      renderTemplate (String.mk (assembleTmpl segs)) vars =
        renderTemplateSpec (String.mk (assembleTmpl segs)) vars) ∧
    (∀ (template : String) (vars : Vars), noPhOccurs template = true →
      renderTemplate template vars = String.mk (jsTrimList (collapseNl template.data))) := by
  constructor
  · intro segs vars hgood hclean
    unfold renderTemplate renderTemplateSpec
    have hdata : (String.mk (assembleTmpl segs)).data = assembleTmpl segs := rfl
    rw [hdata, renderCore_assemble vars hgood hclean, simulGo_assemble vars hgood]
  · intro t vars h
    obtain ⟨h0, h1, h2, h3, h4, h5, h6, h7⟩ := noPh_parts h
    have hrc : renderCore t.data vars = t.data := by
      show replaceAllJs (replaceAllJs (replaceAllJs (replaceAllJs (replaceAllJs (replaceAllJs
        (replaceAllJs (replaceAllJs t.data "{title}".data vars.title.data) "{body}".data
        vars.body.data) "{branch}".data vars.branch.data) "{change_num}".data
        vars.changeNum.data) "{project}".data vars.project.data) "{owner}".data
        vars.owner.data) "{date}".data vars.date.data) "{url}".data vars.url.data = t.data
      rw [replaceAllJs_id h0, replaceAllJs_id h1, replaceAllJs_id h2, replaceAllJs_id h3,
        replaceAllJs_id h4, replaceAllJs_id h5, replaceAllJs_id h6, replaceAllJs_id h7]
    unfold renderTemplate
    rw [hrc]

/-- C2 witness: the amended theorem applied at a concrete decomposed
template with clean values, and at a placeholder-free template. -/
theorem c2_render_template_witness :
    renderTemplate
        (String.mk (assembleTmpl
          [ Sum.inl "Hello ".data, Sum.inr (0 : Fin 8), Sum.inl " end".data]))
        (Vars.mk "T1" "B2" "" "" "" "" "" "") =
      renderTemplateSpec
        (String.mk (assembleTmpl
          [ Sum.inl "Hello ".data, Sum.inr (0 : Fin 8), Sum.inl " end".data]))
        (Vars.mk "T1" "B2" "" "" "" "" "" "") ∧
    renderTemplate "plain {foo}\n\n\n\ntail" (Vars.mk "x" "" "" "" "" "" "" "") =
      String.mk (jsTrimList (collapseNl ("plain {foo}\n\n\n\ntail").data)) := by
  refine ⟨?_, ?_⟩
  · exact c2_render_template_amended.1
      [ Sum.inl "Hello ".data, Sum.inr (0 : Fin 8), Sum.inl " end".data]
      (Vars.mk "T1" "B2" "" "" "" "" "" "") (by decide) (by decide)
  · exact c2_render_template_amended.2 "plain {foo}\n\n\n\ntail"
      (Vars.mk "x" "" "" "" "" "" "" "") (by decide)
